import Mathlib

/-!
Shallow embedding of the chashmap repository (`src/chashmap.c`) in Lean 4.

Modelling conventions:
- Byte buffers passed as `(void *, size_t)` pairs become `List Nat` of byte
  values; the declared size is the list length.
- 64-bit machine arithmetic in the default hash is modelled on `Nat` with
  explicit reduction `% 2^64` wherever C wraps.
- `float` values (the load factor and the occupancy ratio comparison in
  `hashmap_insert`) are idealised as rationals `ℚ`.
- Possibly-null pointer arguments become `Option` arguments; a null pointer is
  `none`.
- Heap allocation is nondeterministic in C, so each operation takes explicit
  Booleans saying whether the allocations it performs succeed.  A freed value
  buffer (the update path of `hashmap_insert` frees the old value before the
  replacement allocation) is modelled by `value = none` in the entry.
- Each C function returns its `int` status; functions that mutate the map
  through a pointer return the updated map alongside the status.
-/

namespace CHashMap

/-- Raw byte buffer plus its declared length: the length is the list length. -/
abbrev Bytes := List Nat

/-- `typedef uint64_t (*hash_func_t)(const void *key_data, size_t key_size)`. -/
abbrev HashFunc := Bytes → Nat

/-- `typedef int (*eq_func_t)(const void *a, const void *b, size_t size)`;
the C comparator is only invoked when both keys have the declared size, so it
is modelled on the two byte lists. -/
abbrev EqFunc := Bytes → Bytes → Bool

/-- `struct HashMapEntry`: an owned key buffer and an owned value buffer.
`value = none` models the freed/NULL value pointer that the update path of
`hashmap_insert` leaves behind when the replacement `malloc` fails. -/
structure HashMapEntry where
  key : Bytes
  value : Option Bytes
deriving DecidableEq

/-- The `HashMap` struct: bucket array (list of chains, head first), the
stored `capacity` and `size` fields and the two strategy functions. -/
structure HashMap where
  buckets : List (List HashMapEntry)
  capacity : Nat
  size : Nat
  hash_func : HashFunc
  eq_func : EqFunc
  load_factor : ℚ

/-- Wrap-around modulus of 64-bit unsigned arithmetic. -/
def U64 : Nat := 2 ^ 64

/-- One loop iteration of Jenkins' one-at-a-time hash (`default_hash` body):
`hash += key[i]; hash += hash << 10; hash ^= hash >> 6;` with 64-bit wrap. -/
def hash_mix_byte (hash b : Nat) : Nat :=
  let h1 := (hash + b) % U64
  let h2 := (h1 + h1 * 2 ^ 10) % U64
  h2 ^^^ (h2 / 2 ^ 6)

/-- `static uint64_t default_hash(const void *data, size_t size)`. -/
def default_hash (data : Bytes) : Nat :=
  let h0 := data.foldl hash_mix_byte 0
  let h1 := (h0 + h0 * 2 ^ 3) % U64
  let h2 := h1 ^^^ (h1 / 2 ^ 11)
  (h2 + h2 * 2 ^ 15) % U64

/-- `static int default_eq(...)`: `memcmp(data1, data2, size) == 0`. -/
def default_eq (a b : Bytes) : Bool := a == b

/-- `#define DEFAULT_INITIAL_CAPACITY 16`. -/
def DEFAULT_INITIAL_CAPACITY : Nat := 16

/-- `#define DEFAULT_LOAD_FACTOR 0.75f` (0.75 as the rational 3/4). -/
def DEFAULT_LOAD_FACTOR : ℚ := mkRat 3 4

/-- `int hashmap_init(...)`.  `map_nonnull = false` models a NULL `map`
pointer, `callocOk` the success of the bucket-array `calloc`.  On failure the
result map is `none` (the spec's "left uninitialized"). -/
def hashmap_init (map_nonnull : Bool) (capacity : Nat) (hash_func : Option HashFunc)
    (eq_func : Option EqFunc) (load_factor : ℚ) (callocOk : Bool) :
    Int × Option HashMap :=
  if !map_nonnull then (-1, none)
  else
    let capacity := if capacity = 0 then DEFAULT_INITIAL_CAPACITY else capacity
    let load_factor := if load_factor ≤ 0 then DEFAULT_LOAD_FACTOR else load_factor
    if !callocOk then (-1, none)
    else
      (0, some { buckets := List.replicate capacity []
                 capacity := capacity
                 size := 0
                 hash_func := hash_func.getD default_hash
                 eq_func := eq_func.getD default_eq
                 load_factor := load_factor })

/-- The chain-walk guard used by insert/get/remove:
`entry->key_size == key_size && map->eq_func(entry->key, key_data, key_size)`. -/
def entry_matches (eq : EqFunc) (key : Bytes) (e : HashMapEntry) : Bool :=
  e.key.length == key.length && eq e.key key

/-- `static HashMapEntry *hashmap_create_entry(...)`: three `malloc`s (node,
key copy, value copy); failure of any returns NULL after freeing the partial
allocations, which has no observable effect on the map. -/
def hashmap_create_entry (key val : Bytes) (entry_ok key_ok val_ok : Bool) :
    Option HashMapEntry :=
  if !entry_ok then none
  else if !key_ok then none
  else if !val_ok then none
  else some { key := key, value := some val }

/-- Splice one entry onto the head of a bucket chain in the (partial) new
bucket array during `hashmap_resize`'s rehash loop. -/
def bucket_insert (bs : List (List HashMapEntry)) (i : Nat) (e : HashMapEntry) :
    List (List HashMapEntry) :=
  bs.set i (e :: bs.getD i [])

/-- The rehash loop of `hashmap_resize`: old buckets in index order, each
chain head-to-tail, each entry respliced at `hash % new_capacity`. -/
def rehash_all (hf : HashFunc) (new_capacity : Nat) (entries : List HashMapEntry) :
    List (List HashMapEntry) :=
  entries.foldl (fun bs e => bucket_insert bs (hf e.key % new_capacity) e)
    (List.replicate new_capacity [])

/-- `static int hashmap_resize(HashMap *map, size_t new_capacity)`.
`callocOk` models the success of the new bucket-array `calloc`. -/
def hashmap_resize (map : HashMap) (new_capacity : Nat) (callocOk : Bool) :
    Int × HashMap :=
  if new_capacity < 1 then (-1, map)
  else if !callocOk then (-1, map)
  else
    (0, { map with buckets := rehash_all map.hash_func new_capacity map.buckets.flatten
                   capacity := new_capacity })

/-- Step 1 of `hashmap_insert`: grow to double capacity when
`(float)size / (float)capacity >= load_factor`; a failed resize only warns. -/
def insert_grow (map : HashMap) (resizeOk : Bool) : HashMap :=
  if map.load_factor ≤ mkRat map.size map.capacity then
    (hashmap_resize map (map.capacity * 2) resizeOk).2
  else map

/-- The existing-key scan of `hashmap_insert`: walk the chain; on the first
match free the old value, then (if `allocOk`) install the copied new value and
report 0, else leave the entry with a NULL value and report -1.  `none` means
no entry in the chain matched. -/
def chain_update (eq : EqFunc) (key val : Bytes) (allocOk : Bool) :
    List HashMapEntry → Option (Int × List HashMapEntry)
  | [] => none
  | e :: rest =>
    if entry_matches eq key e then
      if allocOk then some (0, { key := e.key, value := some val } :: rest)
      else some (-1, { key := e.key, value := none } :: rest)
    else
      match chain_update eq key val allocOk rest with
      | some (st, rest2) => some (st, e :: rest2)
      | none => none

/-- `int hashmap_insert(...)`.  `resizeOk` feeds the growth step's `calloc`,
`allocOk` the data allocations of this call (the update path's value `malloc`,
or the three `malloc`s of `hashmap_create_entry` — any of the three failing is
observably identical, so one flag covers them). -/
def hashmap_insert (map : Option HashMap) (key_data : Option Bytes) (val_data : Bytes)
    (resizeOk allocOk : Bool) : Int × Option HashMap :=
  match map, key_data with
  | none, _ => (-1, none)
  | some m, none => (-1, some m)
  | some m, some key =>
    if key.length = 0 then (-1, some m)
    else
      let m1 := insert_grow m resizeOk
      let index := m1.hash_func key % m1.capacity
      let chain := m1.buckets.getD index []
      match chain_update m1.eq_func key val_data allocOk chain with
      | some (st, chain2) => (st, some { m1 with buckets := m1.buckets.set index chain2 })
      | none =>
        match hashmap_create_entry key val_data allocOk allocOk allocOk with
        | none => (-1, some m1)
        | some e =>
          (0, some { m1 with buckets := m1.buckets.set index (e :: chain)
                             size := m1.size + 1 })

/-- The chain scan of `hashmap_get`. -/
def chain_find (eq : EqFunc) (key : Bytes) (chain : List HashMapEntry) :
    Option HashMapEntry :=
  chain.find? (entry_matches eq key)

/-- `int hashmap_get(...)`.  `out_val_nonnull`/`out_size_nonnull` model the
out-pointer nullity, `allocOk` the success of the value-copy `malloc` (only
performed when both out pointers are non-null).  The second component is the
copied-out value buffer, `none` when nothing was written. -/
def hashmap_get (map : Option HashMap) (key_data : Option Bytes)
    (out_val_nonnull out_size_nonnull : Bool) (allocOk : Bool) :
    Int × Option Bytes :=
  match map, key_data with
  | none, _ => (-1, none)
  | some _, none => (-1, none)
  | some m, some key =>
    if key.length = 0 then (-1, none)
    else
      let index := m.hash_func key % m.capacity
      match chain_find m.eq_func key (m.buckets.getD index []) with
      | some e =>
        if out_val_nonnull && out_size_nonnull then
          if allocOk then (1, some (e.value.getD []))
          else (-1, none)
        else (1, none)
      | none => (0, none)

/-- The chain scan of `hashmap_remove`: drop the first matching entry,
`none` when no entry matched. -/
def chain_remove (eq : EqFunc) (key : Bytes) :
    List HashMapEntry → Option (List HashMapEntry)
  | [] => none
  | e :: rest =>
    if entry_matches eq key e then some rest
    else
      match chain_remove eq key rest with
      | some rest2 => some (e :: rest2)
      | none => none

/-- `int hashmap_remove(...)`. -/
def hashmap_remove (map : Option HashMap) (key_data : Option Bytes) :
    Int × Option HashMap :=
  match map, key_data with
  | none, _ => (-1, none)
  | some m, none => (-1, some m)
  | some m, some key =>
    if key.length = 0 then (-1, some m)
    else
      let index := m.hash_func key % m.capacity
      match chain_remove m.eq_func key (m.buckets.getD index []) with
      | some chain2 =>
        (1, some { m with buckets := m.buckets.set index chain2, size := m.size - 1 })
      | none => (0, some m)

/-- All entry nodes of the map, bucket by bucket, chain head first. -/
def HashMap.entriesList (m : HashMap) : List HashMapEntry := m.buckets.flatten

/-- Some entry anywhere in the table matches `key` under the map's equality. -/
def hasKey (m : HashMap) (key : Bytes) : Bool :=
  m.entriesList.any (entry_matches m.eq_func key)

/-- Structural invariant of an initialized map: the stored capacity is the
bucket-array length and is at least 1, the stored size counts the entry nodes,
and every entry sits in the bucket its key hashes to under the current
capacity. -/
def Wf (m : HashMap) : Prop :=
  m.capacity = m.buckets.length ∧
  1 ≤ m.capacity ∧
  m.size = m.entriesList.length ∧
  ∀ i < m.buckets.length, ∀ e ∈ m.buckets.getD i [], m.hash_func e.key % m.capacity = i

/-- The equality strategy decides byte-equality on equal-length buffers (true
of `default_eq`; the hypothesis under which per-key statements make sense). -/
def FaithfulEq (eq : EqFunc) : Prop :=
  ∀ a b : Bytes, a.length = b.length → (eq a b = true ↔ a = b)

/-- The stored keys are pairwise distinct byte sequences. -/
def Distinct (m : HashMap) : Prop :=
  (m.entriesList.map HashMapEntry.key).Nodup

/-- The table stores exactly one entry keyed `K`, and reading its value
buffer yields `V`. -/
def GoodFor (m : HashMap) (K V : Bytes) : Prop :=
  m.entriesList.countP (fun e => e.key == K) = 1 ∧
  ∀ e ∈ m.entriesList, e.key = K → e.value.getD [] = V

instance (m : HashMap) : Decidable (Wf m) := by
  unfold Wf; infer_instance

instance (m : HashMap) : Decidable (Distinct m) := by
  unfold Distinct; infer_instance

instance (m : HashMap) (K V : Bytes) : Decidable (GoodFor m K V) := by
  unfold GoodFor; infer_instance

/-- A later operation on the map, with its allocation outcomes. -/
inductive Op where
  | ins (key val : Bytes) (resizeOk allocOk : Bool)
  | rem (key : Bytes)
  | res (newCapacity : Nat) (callocOk : Bool)

/-- Run one operation against the map (statuses discarded; the C functions
mutate through the pointer and always leave a map behind). -/
def applyOp (m : HashMap) : Op → HashMap
  | .ins key val rOk aOk => ((hashmap_insert (some m) (some key) val rOk aOk).2).getD m
  | .rem key => ((hashmap_remove (some m) (some key)).2).getD m
  | .res c ok => (hashmap_resize m c ok).2

/-- Whether an operation addresses the byte key `K` (inserts or removes of
that exact key). -/
def Op.touchesKey (K : Bytes) : Op → Bool
  | .ins key _ _ _ => key == K
  | .rem key => key == K
  | .res _ _ => false

/-- A placeholder map used as the default for `Option.getD` when a result map
is extracted from an operation that always produces one. -/
def dummyMap : HashMap :=
  { buckets := [[]], capacity := 1, size := 0, hash_func := default_hash,
    eq_func := default_eq, load_factor := 1 }

/-- Concrete entry for sanity witnesses: key byte `1`, value bytes `2, 3`. -/
def exEntry : HashMapEntry := { key := [1], value := some [2, 3] }

/-- A concrete one-bucket map holding `exEntry`, with the default strategies
and load factor 2 (reachable by `hashmap_init` with capacity 1, load factor 2
followed by one insert). -/
def exMap : HashMap :=
  { buckets := [[exEntry]], capacity := 1, size := 1, hash_func := default_hash,
    eq_func := default_eq, load_factor := 2 }

/-- Maps built by running the public operations, used to evaluate the load
factor claim: capacity 3, defaults otherwise, then three inserts. -/
def c7m0 : HashMap := ((hashmap_init true 3 none none 0 true).2).getD dummyMap

def c7m1 : HashMap := ((hashmap_insert (some c7m0) (some [0]) [0] true true).2).getD dummyMap

def c7m2 : HashMap := ((hashmap_insert (some c7m1) (some [1]) [0] true true).2).getD dummyMap

def c7m3 : HashMap := ((hashmap_insert (some c7m2) (some [2]) [0] true true).2).getD dummyMap

/-! ### Generic list helpers -/

lemma getD_set_eq {α : Type _} (bs : List α) (j : Nat) (x d : α) (hj : j < bs.length) :
    (bs.set j x).getD j d = x := by
  rw [List.getD_eq_getElem?_getD, List.getElem?_set]
  simp [hj]

lemma getD_set_ne {α : Type _} (bs : List α) (i j : Nat) (x d : α) (hne : j ≠ i) :
    (bs.set j x).getD i d = bs.getD i d := by
  rw [List.getD_eq_getElem?_getD, List.getElem?_set, List.getD_eq_getElem?_getD]
  simp [hne]

lemma flatten_decomp {α : Type _} (bs : List (List α)) (i : Nat) (h : i < bs.length) :
    bs.flatten = (bs.take i).flatten ++ (bs[i] ++ (bs.drop (i + 1)).flatten) := by
  conv_lhs => rw [← List.take_append_drop i bs]
  rw [List.flatten_append, List.drop_eq_getElem_cons h, List.flatten_cons]

lemma flatten_set {α : Type _} (bs : List (List α)) (i : Nat) (c : List α)
    (h : i < bs.length) :
    (bs.set i c).flatten = (bs.take i).flatten ++ (c ++ (bs.drop (i + 1)).flatten) := by
  rw [List.set_eq_take_cons_drop c h, List.flatten_append, List.flatten_cons]

lemma mem_getD_flatten {α : Type _} {bs : List (List α)} {i : Nat} {e : α}
    (he : e ∈ bs.getD i []) : e ∈ bs.flatten := by
  by_cases h : i < bs.length
  · rw [List.getD_eq_getElem bs [] h] at he
    exact List.mem_flatten.mpr ⟨bs[i], List.getElem_mem h, he⟩
  · rw [List.getD_eq_getElem?_getD, List.getElem?_eq_none (by omega)] at he
    simp at he

lemma countP_eq_one_unique {α : Type _} (p : α → Bool) :
    ∀ (l : List α), l.countP p = 1 →
      ∀ a ∈ l, p a = true → ∀ b ∈ l, p b = true → a = b := by
  intro l
  induction l with
  | nil => intro _ a ha; simp at ha
  | cons x xs ih =>
    intro h a ha hpa b hb hpb
    by_cases hx : p x = true
    · have hxs : xs.countP p = 0 := by
        rw [List.countP_cons, if_pos hx] at h; omega
      have hnone := List.countP_eq_zero.mp hxs
      rcases List.mem_cons.mp ha with rfl | ha
      · rcases List.mem_cons.mp hb with rfl | hb
        · rfl
        · exact absurd hpb (hnone b hb)
      · exact absurd hpa (hnone a ha)
    · have hxs : xs.countP p = 1 := by
        rw [List.countP_cons, if_neg hx] at h; omega
      rcases List.mem_cons.mp ha with rfl | ha
      · exact absurd hpa hx
      · rcases List.mem_cons.mp hb with rfl | hb
        · exact absurd hpb hx
        · exact ih hxs a ha hpa b hb hpb

lemma find?_append_left_none {α : Type _} {p : α → Bool} {l₁ : List α} (l₂ : List α)
    (h : ∀ a ∈ l₁, p a = false) :
    (l₁ ++ l₂).find? p = l₂.find? p := by
  induction l₁ with
  | nil => rfl
  | cons x xs ih =>
    rw [List.cons_append, List.find?_cons_of_neg]
    · exact ih fun a ha => h a (List.mem_cons_of_mem x ha)
    · simp [h x (List.mem_cons_self x xs)]

/-! ### Chain-level lemmas -/

/-- `entry_matches` only inspects the key of the entry. -/
lemma entry_matches_mk (eq : EqFunc) (K k : Bytes) (v : Option Bytes) :
    entry_matches eq K { key := k, value := v } =
      (k.length == K.length && eq k K) := rfl

lemma chain_update_eq_none {eq : EqFunc} {K V : Bytes} {a : Bool} :
    ∀ {c : List HashMapEntry},
      chain_update eq K V a c = none ↔ ∀ e ∈ c, entry_matches eq K e = false
  | [] => by simp [chain_update]
  | e :: rest => by
    by_cases he : entry_matches eq K e
    · constructor
      · intro h
        rw [chain_update, if_pos he] at h
        cases a <;> simp at h
      · intro h
        exact absurd he (by simp [h e (List.mem_cons_self e rest)])
    · rw [chain_update, if_neg he]
      cases hrec : chain_update eq K V a rest with
      | some pr => constructor
                   · intro h; simp at h
                   · intro h
                     have : chain_update eq K V a rest = none :=
                       chain_update_eq_none.mpr fun x hx => h x (List.mem_cons_of_mem e hx)
                     rw [this] at hrec; cases hrec
      | none => constructor
                · intro _ x hx
                  rcases List.mem_cons.mp hx with rfl | hx
                  · simpa using he
                  · exact chain_update_eq_none.mp hrec x hx
                · intro _; rfl

/-- Full decomposition of a successful `chain_update`: the chain splits at the
first matching entry, whose value is replaced (or lost when the allocation
fails). -/
lemma chain_update_eq_some {eq : EqFunc} {K V : Bytes} {a : Bool} :
    ∀ {c : List HashMapEntry} {st : Int} {c' : List HashMapEntry},
      chain_update eq K V a c = some (st, c') →
      ∃ p e0 q, c = p ++ e0 :: q ∧ (∀ e ∈ p, entry_matches eq K e = false) ∧
        entry_matches eq K e0 = true ∧
        c' = p ++ { key := e0.key, value := if a then some V else none } :: q ∧
        st = (if a then 0 else -1)
  | [], st, c' => by simp [chain_update]
  | e :: rest, st, c' => by
    intro h
    by_cases he : entry_matches eq K e
    · rw [chain_update, if_pos he] at h
      cases a with
      | true =>
        obtain ⟨hst, hc'⟩ :
            (0 : Int) = st ∧ ({ key := e.key, value := some V } : HashMapEntry) :: rest = c' := by
          simpa using h
        exact ⟨[], e, rest, by simp, by simp, he, by simp [← hc'], by simp [← hst]⟩
      | false =>
        obtain ⟨hst, hc'⟩ :
            (-1 : Int) = st ∧ ({ key := e.key, value := none } : HashMapEntry) :: rest = c' := by
          simpa using h
        exact ⟨[], e, rest, by simp, by simp, he, by simp [← hc'], by simp [← hst]⟩
    · rw [chain_update, if_neg he] at h
      cases hrec : chain_update eq K V a rest with
      | none => rw [hrec] at h; cases h
      | some pr =>
        obtain ⟨st2, rest2⟩ := pr
        rw [hrec] at h
        obtain ⟨hst, hc'⟩ : st2 = st ∧ e :: rest2 = c' := by simpa using h
        obtain ⟨p, e0, q, hsplit, hp, he0, hrest2, hst2⟩ := chain_update_eq_some hrec
        refine ⟨e :: p, e0, q, by simp [hsplit], ?_, he0, ?_, by rw [← hst, hst2]⟩
        · intro x hx
          rcases List.mem_cons.mp hx with rfl | hx
          · simpa using he
          · exact hp x hx
        · simp [← hc', hrest2]

lemma chain_remove_eq_none {eq : EqFunc} {K : Bytes} :
    ∀ {c : List HashMapEntry},
      chain_remove eq K c = none ↔ ∀ e ∈ c, entry_matches eq K e = false
  | [] => by simp [chain_remove]
  | e :: rest => by
    by_cases he : entry_matches eq K e
    · rw [chain_remove, if_pos he]
      constructor
      · intro h; simp at h
      · intro h; exact absurd he (by simp [h e (List.mem_cons_self e rest)])
    · rw [chain_remove, if_neg he]
      cases hrec : chain_remove eq K rest with
      | some c2 => constructor
                   · intro h; simp at h
                   · intro h
                     have : chain_remove eq K rest = none :=
                       chain_remove_eq_none.mpr fun x hx => h x (List.mem_cons_of_mem e hx)
                     rw [this] at hrec; cases hrec
      | none => constructor
                · intro _ x hx
                  rcases List.mem_cons.mp hx with rfl | hx
                  · simpa using he
                  · exact chain_remove_eq_none.mp hrec x hx
                · intro _; rfl

/-- Decomposition of a successful `chain_remove`: the first matching entry is
unlinked, everything else is kept in order. -/
lemma chain_remove_eq_some {eq : EqFunc} {K : Bytes} :
    ∀ {c c' : List HashMapEntry},
      chain_remove eq K c = some c' →
      ∃ p e0 q, c = p ++ e0 :: q ∧ (∀ e ∈ p, entry_matches eq K e = false) ∧
        entry_matches eq K e0 = true ∧ c' = p ++ q
  | [], c' => by simp [chain_remove]
  | e :: rest, c' => by
    intro h
    by_cases he : entry_matches eq K e
    · rw [chain_remove, if_pos he] at h
      exact ⟨[], e, rest, by simp, by simp, he, by simpa using h.symm⟩
    · rw [chain_remove, if_neg he] at h
      cases hrec : chain_remove eq K rest with
      | none => rw [hrec] at h; cases h
      | some rest2 =>
        rw [hrec] at h
        obtain ⟨p, e0, q, hsplit, hp, he0, hrest2⟩ := chain_remove_eq_some hrec
        refine ⟨e :: p, e0, q, by simp [hsplit], ?_, he0, ?_⟩
        · intro x hx
          rcases List.mem_cons.mp hx with rfl | hx
          · simpa using he
          · exact hp x hx
        · have : c' = e :: rest2 := by simpa using h.symm
          simp [this, hrest2]

/-! ### Rehash and resize lemmas -/

lemma rehash_fold_length (hf : HashFunc) (c : Nat) :
    ∀ (es : List HashMapEntry) (bs : List (List HashMapEntry)),
      (es.foldl (fun bs e => bucket_insert bs (hf e.key % c) e) bs).length = bs.length
  | [], bs => rfl
  | e :: es, bs => by
    rw [List.foldl_cons, rehash_fold_length hf c es]
    simp [bucket_insert]

lemma flatten_replicate_nil {α : Type _} : ∀ (c : Nat), (List.replicate c ([] : List α)).flatten = []
  | 0 => rfl
  | c + 1 => by rw [List.replicate_succ, List.flatten_cons, flatten_replicate_nil c]; rfl

lemma bucket_insert_flatten_perm (bs : List (List HashMapEntry)) (i : Nat) (e : HashMapEntry)
    (h : i < bs.length) : (bucket_insert bs i e).flatten.Perm (e :: bs.flatten) := by
  rw [bucket_insert, flatten_set bs i _ h, List.getD_eq_getElem bs [] h,
    flatten_decomp bs i h]
  exact List.perm_middle.trans (List.Perm.refl _)

lemma rehash_fold_flatten_perm (hf : HashFunc) (c : Nat) (hc : 1 ≤ c) :
    ∀ (es : List HashMapEntry) (bs : List (List HashMapEntry)), bs.length = c →
      (es.foldl (fun bs e => bucket_insert bs (hf e.key % c) e) bs).flatten.Perm
        (es ++ bs.flatten)
  | [], bs, _ => by simp
  | e :: es, bs, hlen => by
    rw [List.foldl_cons]
    have hi : hf e.key % c < bs.length := by rw [hlen]; exact Nat.mod_lt _ (by omega)
    have hlen2 : (bucket_insert bs (hf e.key % c) e).length = c := by
      simpa [bucket_insert] using hlen
    have ih := rehash_fold_flatten_perm hf c hc es (bucket_insert bs (hf e.key % c) e) hlen2
    refine ih.trans ?_
    have hstep := bucket_insert_flatten_perm bs (hf e.key % c) e hi
    have h1 : (es ++ (bucket_insert bs (hf e.key % c) e).flatten).Perm
        (es ++ e :: bs.flatten) := List.Perm.append_left es hstep
    have h2 : (es ++ e :: bs.flatten).Perm (e :: (es ++ bs.flatten)) := List.perm_middle
    exact h1.trans h2

lemma rehash_fold_placed (hf : HashFunc) (c : Nat) :
    ∀ (es : List HashMapEntry) (bs : List (List HashMapEntry)), bs.length = c →
      (∀ i < c, ∀ e ∈ bs.getD i [], hf e.key % c = i) →
      ∀ i < c, ∀ x ∈ (es.foldl (fun bs e => bucket_insert bs (hf e.key % c) e) bs).getD i [],
        hf x.key % c = i
  | [], bs, _, hinv => hinv
  | e :: es, bs, hlen, hinv => by
    rw [List.foldl_cons]
    have hlen2 : (bucket_insert bs (hf e.key % c) e).length = c := by
      simpa [bucket_insert] using hlen
    refine rehash_fold_placed hf c es _ hlen2 ?_
    intro i hi x hx
    by_cases hij : i = hf e.key % c
    · subst hij
      rw [bucket_insert, getD_set_eq _ _ _ _ (by omega)] at hx
      rcases List.mem_cons.mp hx with rfl | hx
      · rfl
      · exact hinv _ hi x hx
    · rw [bucket_insert, getD_set_ne _ _ _ _ _ (by omega)] at hx
      exact hinv i hi x hx

/-- Behaviour of `hashmap_resize` on the fields it never touches, the entry
multiset, and the structural invariant. -/
lemma resize_fields (m : HashMap) (c : Nat) (ok : Bool) :
    (hashmap_resize m c ok).2.size = m.size ∧
    (hashmap_resize m c ok).2.hash_func = m.hash_func ∧
    (hashmap_resize m c ok).2.eq_func = m.eq_func ∧
    (hashmap_resize m c ok).2.load_factor = m.load_factor := by
  rw [hashmap_resize]
  split_ifs <;> simp

lemma resize_entries_perm (m : HashMap) (c : Nat) (ok : Bool) :
    (hashmap_resize m c ok).2.entriesList.Perm m.entriesList := by
  rw [hashmap_resize]
  split_ifs with h1 h2
  · exact List.Perm.refl _
  · exact List.Perm.refl _
  · have hc : 1 ≤ c := by omega
    have := rehash_fold_flatten_perm m.hash_func c hc m.buckets.flatten
      (List.replicate c []) (List.length_replicate c [])
    simpa [HashMap.entriesList, rehash_all, flatten_replicate_nil] using this

lemma resize_capacity (m : HashMap) (c : Nat) (ok : Bool) (hsucc : (hashmap_resize m c ok).1 = 0) :
    (hashmap_resize m c ok).2.capacity = c := by
  rw [hashmap_resize] at hsucc ⊢
  split_ifs at hsucc ⊢ <;> simp_all

lemma resize_success (m : HashMap) (c : Nat) (ok : Bool) (hsucc : (hashmap_resize m c ok).1 = 0) :
    1 ≤ c ∧ ok = true := by
  rw [hashmap_resize] at hsucc
  split_ifs at hsucc with h1 h2
  · cases hsucc
  · cases hsucc
  · exact ⟨by omega, by revert h2; cases ok <;> simp⟩

lemma resize_failure (m : HashMap) (c : Nat) (ok : Bool)
    (hfail : (hashmap_resize m c ok).1 ≠ 0) : hashmap_resize m c ok = (-1, m) := by
  rw [hashmap_resize] at hfail ⊢
  split_ifs at hfail ⊢ <;> simp_all

lemma resize_wf (m : HashMap) (c : Nat) (ok : Bool) (hWf : Wf m) :
    Wf (hashmap_resize m c ok).2 := by
  by_cases hsucc : (hashmap_resize m c ok).1 = 0
  · obtain ⟨hcap, hpos, hsize, hplaced⟩ := hWf
    obtain ⟨hc, hok⟩ := resize_success m c ok hsucc
    have hres : hashmap_resize m c ok =
        (0, { m with buckets := rehash_all m.hash_func c m.buckets.flatten
                     capacity := c }) := by
      rw [hashmap_resize]
      split_ifs with h1 h2
      · omega
      · rw [hok] at h2; simp at h2
      · rfl
    rw [hres]
    have hlen : (rehash_all m.hash_func c m.buckets.flatten).length = c := by
      rw [rehash_all, rehash_fold_length]
      exact List.length_replicate c []
    refine ⟨by simpa using hlen.symm, by simpa using hc, ?_, ?_⟩
    · have hperm := resize_entries_perm m c ok
      rw [hres] at hperm
      simpa [HashMap.entriesList] using hsize.trans hperm.length_eq.symm
    · simp only [hlen]
      intro i hi x hx
      have hinit : ∀ i < c, ∀ e ∈ (List.replicate c ([] : List HashMapEntry)).getD i [],
          m.hash_func e.key % c = i := by
        intro i hi e he
        rw [List.getD_eq_getElem _ [] (by simpa using hi), List.getElem_replicate] at he
        simp at he
      exact rehash_fold_placed m.hash_func c m.buckets.flatten _
        (List.length_replicate c []) hinit i hi x (by simpa [rehash_all] using hx)
  · rw [resize_failure m c ok hsucc]
    exact hWf

/-! ### Growth step and insert path analysis -/

lemma insert_grow_fields (m : HashMap) (rOk : Bool) :
    (insert_grow m rOk).size = m.size ∧
    (insert_grow m rOk).hash_func = m.hash_func ∧
    (insert_grow m rOk).eq_func = m.eq_func ∧
    (insert_grow m rOk).load_factor = m.load_factor := by
  rw [insert_grow]
  split_ifs
  · exact resize_fields m (m.capacity * 2) rOk
  · exact ⟨rfl, rfl, rfl, rfl⟩

lemma insert_grow_entries_perm (m : HashMap) (rOk : Bool) :
    (insert_grow m rOk).entriesList.Perm m.entriesList := by
  rw [insert_grow]
  split_ifs
  · exact resize_entries_perm m (m.capacity * 2) rOk
  · exact List.Perm.refl _

lemma insert_grow_wf (m : HashMap) (rOk : Bool) (hWf : Wf m) : Wf (insert_grow m rOk) := by
  rw [insert_grow]
  split_ifs
  · exact resize_wf m (m.capacity * 2) rOk hWf
  · exact hWf

/-- The three execution paths of `hashmap_insert` on a present map and a
nonempty key: update of the first matching chain entry, failed creation of a
new entry, successful creation and head insertion. -/
lemma hashmap_insert_cases (m : HashMap) (K V : Bytes) (rOk aOk : Bool)
    (hK : ¬ K.length = 0) :
    (∃ st chain2,
        chain_update (insert_grow m rOk).eq_func K V aOk
            ((insert_grow m rOk).buckets.getD
              ((insert_grow m rOk).hash_func K % (insert_grow m rOk).capacity) []) =
          some (st, chain2) ∧
        hashmap_insert (some m) (some K) V rOk aOk =
          (st, some { insert_grow m rOk with
                        buckets := (insert_grow m rOk).buckets.set
                          ((insert_grow m rOk).hash_func K % (insert_grow m rOk).capacity)
                          chain2 })) ∨
    (chain_update (insert_grow m rOk).eq_func K V aOk
        ((insert_grow m rOk).buckets.getD
          ((insert_grow m rOk).hash_func K % (insert_grow m rOk).capacity) []) = none ∧
      aOk = false ∧
      hashmap_insert (some m) (some K) V rOk aOk = (-1, some (insert_grow m rOk))) ∨
    (chain_update (insert_grow m rOk).eq_func K V aOk
        ((insert_grow m rOk).buckets.getD
          ((insert_grow m rOk).hash_func K % (insert_grow m rOk).capacity) []) = none ∧
      aOk = true ∧
      hashmap_insert (some m) (some K) V rOk aOk =
        (0, some { insert_grow m rOk with
                     buckets := (insert_grow m rOk).buckets.set
                       ((insert_grow m rOk).hash_func K % (insert_grow m rOk).capacity)
                       ({ key := K, value := some V } ::
                         (insert_grow m rOk).buckets.getD
                           ((insert_grow m rOk).hash_func K % (insert_grow m rOk).capacity) [])
                     size := (insert_grow m rOk).size + 1 })) := by
  rw [hashmap_insert]
  simp only [hK, if_false]
  cases hupd : chain_update (insert_grow m rOk).eq_func K V aOk
      ((insert_grow m rOk).buckets.getD
        ((insert_grow m rOk).hash_func K % (insert_grow m rOk).capacity) []) with
  | some pr =>
    obtain ⟨st, chain2⟩ := pr
    exact Or.inl ⟨st, chain2, rfl, rfl⟩
  | none =>
    cases haOk : aOk with
    | false =>
      refine Or.inr (Or.inl ⟨rfl, rfl, ?_⟩)
      subst haOk
      simp [hashmap_create_entry]
    | true =>
      refine Or.inr (Or.inr ⟨rfl, rfl, ?_⟩)
      subst haOk
      simp [hashmap_create_entry]

/-! ### Key placement under the structural invariant -/

lemma default_eq_faithful : FaithfulEq default_eq := by
  intro a b _
  simp [default_eq]

lemma entry_matches_key_eq {eq : EqFunc} {K : Bytes} {e : HashMapEntry}
    (hfaith : FaithfulEq eq) : entry_matches eq K e = true ↔ e.key = K := by
  rw [entry_matches]
  constructor
  · intro h
    obtain ⟨hlen, heq⟩ := Bool.and_eq_true_iff.mp h
    exact (hfaith e.key K (by simpa using hlen)).mp heq
  · intro h
    subst h
    simp [(hfaith e.key e.key rfl).mpr rfl]

lemma mem_bucket_of_mem_entries {m : HashMap} {e : HashMapEntry} (hWf : Wf m)
    (he : e ∈ m.entriesList) :
    e ∈ m.buckets.getD (m.hash_func e.key % m.capacity) [] := by
  obtain ⟨l, hl, hel⟩ := List.mem_flatten.mp he
  obtain ⟨i, hi, rfl⟩ := List.mem_iff_getElem.mp hl
  have hplaced := hWf.2.2.2 i hi e (by rwa [List.getD_eq_getElem _ [] hi])
  rw [hplaced, List.getD_eq_getElem _ [] hi]
  exact hel

lemma hasKey_mem_chain {m : HashMap} {K : Bytes} (hWf : Wf m)
    (hfaith : FaithfulEq m.eq_func) (h : hasKey m K = true) :
    ∃ e ∈ m.buckets.getD (m.hash_func K % m.capacity) [],
      entry_matches m.eq_func K e = true := by
  obtain ⟨e, he, hm⟩ := List.any_eq_true.mp (by rwa [hasKey] at h)
  have hkey := (entry_matches_key_eq hfaith).mp hm
  refine ⟨e, ?_, hm⟩
  have := mem_bucket_of_mem_entries hWf he
  rwa [hkey] at this

lemma not_hasKey_chain {m : HashMap} {K : Bytes} {i : Nat} (h : hasKey m K = false) :
    ∀ e ∈ m.buckets.getD i [], entry_matches m.eq_func K e = false := by
  intro e he
  have hany := List.any_eq_false.mp (by rwa [hasKey] at h)
  simpa using hany e (mem_getD_flatten he)

/-- Decomposition of the entry list around one bucket, before and after that
bucket's chain is replaced. -/
lemma entries_set_chain (m1 : HashMap) (i : Nat) (c' : List HashMapEntry)
    (hi : i < m1.buckets.length) :
    ({ m1 with buckets := m1.buckets.set i c' } : HashMap).entriesList =
      (m1.buckets.take i).flatten ++ (c' ++ (m1.buckets.drop (i + 1)).flatten) ∧
    m1.entriesList =
      (m1.buckets.take i).flatten ++
        (m1.buckets.getD i [] ++ (m1.buckets.drop (i + 1)).flatten) := by
  constructor
  · show (m1.buckets.set i c').flatten = _
    exact flatten_set m1.buckets i c' hi
  · show m1.buckets.flatten = _
    rw [List.getD_eq_getElem _ [] hi]
    exact flatten_decomp m1.buckets i hi

/-- A nonempty chain read with `getD` certifies that the index is in range. -/
lemma getD_ne_nil_lt {α : Type _} {bs : List (List α)} {i : Nat}
    (h : bs.getD i [] ≠ []) : i < bs.length := by
  by_contra hge
  rw [List.getD_eq_getElem?_getD, List.getElem?_eq_none (by omega)] at h
  exact h rfl

/-! ### Structural invariant preservation -/

lemma set_chain_wf (m1 : HashMap) (i : Nat) (c' : List HashMapEntry) (s' : Nat)
    (hWf1 : Wf m1) (hi : i < m1.buckets.length)
    (hplace : ∀ x ∈ c', m1.hash_func x.key % m1.capacity = i)
    (hsize : s' + (m1.buckets.getD i []).length = m1.size + c'.length) :
    Wf { m1 with buckets := m1.buckets.set i c', size := s' } := by
  obtain ⟨hcap, hpos, hsz, hplaced⟩ := hWf1
  obtain ⟨hset, hold⟩ := entries_set_chain m1 i c' hi
  refine ⟨by simpa using hcap, hpos, ?_, ?_⟩
  · show s' = ({ m1 with buckets := m1.buckets.set i c', size := s' } : HashMap).entriesList.length
    have h1 : ({ m1 with buckets := m1.buckets.set i c', size := s' } : HashMap).entriesList =
        (m1.buckets.take i).flatten ++ (c' ++ (m1.buckets.drop (i + 1)).flatten) := hset
    have h2 := congrArg List.length hold
    have h3 := congrArg List.length h1
    simp only [List.length_append] at h2 h3
    omega
  · intro j hj x hx
    simp only [List.length_set] at hj
    by_cases hij : j = i
    · subst hij
      rw [show ({ m1 with buckets := m1.buckets.set j c', size := s' } : HashMap).buckets =
            m1.buckets.set j c' from rfl, getD_set_eq _ _ _ _ hi] at hx
      exact hplace x hx
    · rw [show ({ m1 with buckets := m1.buckets.set i c', size := s' } : HashMap).buckets =
            m1.buckets.set i c' from rfl, getD_set_ne _ _ _ _ _ (by omega)] at hx
      exact hplaced j hj x hx

lemma init_wf (mnn : Bool) (capacity : Nat) (hf : Option HashFunc) (ef : Option EqFunc)
    (lf : ℚ) (cOk : Bool) :
    ∀ m0, (hashmap_init mnn capacity hf ef lf cOk).2 = some m0 → Wf m0 := by
  intro m0 h
  rw [hashmap_init] at h
  cases mnn with
  | false => simp at h
  | true =>
    cases cOk with
    | false => simp at h
    | true =>
      obtain rfl : _ = m0 := by simpa using h
      refine ⟨by simp, ?_, ?_, ?_⟩
      · show 1 ≤ (if capacity = 0 then DEFAULT_INITIAL_CAPACITY else capacity)
        split_ifs with h0
        · simp [DEFAULT_INITIAL_CAPACITY]
        · omega
      · simp [HashMap.entriesList, flatten_replicate_nil]
      · intro i hi x hx
        simp only [List.length_replicate] at hi
        rw [List.getD_eq_getElem _ [] (by simpa using hi), List.getElem_replicate] at hx
        simp at hx

lemma insert_wf (m : HashMap) (K V : Bytes) (rOk aOk : Bool) (hWf : Wf m) :
    ∀ m', (hashmap_insert (some m) (some K) V rOk aOk).2 = some m' → Wf m' := by
  intro m' hm'
  by_cases hK : K.length = 0
  · rw [hashmap_insert] at hm'
    simp only [hK, if_true] at hm'
    obtain rfl : m = m' := by simpa using hm'
    exact hWf
  · have hWf1 := insert_grow_wf m rOk hWf
    rcases hashmap_insert_cases m K V rOk aOk hK with
      ⟨st, chain2, hupd, heq⟩ | ⟨hupd, haOk, heq⟩ | ⟨hupd, haOk, heq⟩
    · rw [heq] at hm'
      obtain rfl : _ = m' := by simpa using hm'
      obtain ⟨p, e0, q, hsplit, hp, he0, hc', hst⟩ := chain_update_eq_some hupd
      have hi : (insert_grow m rOk).hash_func K % (insert_grow m rOk).capacity <
          (insert_grow m rOk).buckets.length :=
        getD_ne_nil_lt (by rw [hsplit]; simp)
      have := set_chain_wf (insert_grow m rOk) _ chain2 (insert_grow m rOk).size hWf1 hi
        ?_ ?_
      · exact this
      · intro x hx
        rw [hc'] at hx
        have hmem : x.key = e0.key ∨ x ∈ (insert_grow m rOk).buckets.getD
            ((insert_grow m rOk).hash_func K % (insert_grow m rOk).capacity) [] := by
          rcases List.mem_append.mp hx with hx | hx
          · exact Or.inr (by rw [hsplit]; exact List.mem_append_left _ hx)
          · rcases List.mem_cons.mp hx with rfl | hx
            · exact Or.inl rfl
            · exact Or.inr (by rw [hsplit]; exact List.mem_append_right _ (List.mem_cons_of_mem _ hx))
        rcases hmem with hkx | hmemx
        · rw [hkx]
          exact hWf1.2.2.2 _ hi e0 (by rw [hsplit]; exact List.mem_append_right _ (List.mem_cons_self e0 q))
        · exact hWf1.2.2.2 _ hi x hmemx
      · rw [hsplit, hc']
        simp
    · rw [heq] at hm'
      obtain rfl : _ = m' := by simpa using hm'
      exact hWf1
    · rw [heq] at hm'
      obtain rfl : _ = m' := Option.some_inj.mp hm'
      have hi : (insert_grow m rOk).hash_func K % (insert_grow m rOk).capacity <
          (insert_grow m rOk).buckets.length := by
        rw [← hWf1.1]
        have hpos := hWf1.2.1
        exact Nat.mod_lt _ (by omega)
      have := set_chain_wf (insert_grow m rOk) _
        ({ key := K, value := some V } ::
          (insert_grow m rOk).buckets.getD
            ((insert_grow m rOk).hash_func K % (insert_grow m rOk).capacity) [])
        ((insert_grow m rOk).size + 1) hWf1 hi ?_ ?_
      · exact this
      · intro x hx
        rcases List.mem_cons.mp hx with rfl | hx
        · rfl
        · exact hWf1.2.2.2 _ hi x hx
      · simp only [List.length_cons]
        omega

lemma remove_wf (m : HashMap) (K : Bytes) (hWf : Wf m) :
    ∀ m', (hashmap_remove (some m) (some K)).2 = some m' → Wf m' := by
  intro m' hm'
  rw [hashmap_remove] at hm'
  by_cases hK : K.length = 0
  · simp only [hK, if_true] at hm'
    obtain rfl : m = m' := by simpa using hm'
    exact hWf
  · simp only [hK, if_false] at hm'
    cases hrem : chain_remove m.eq_func K
        (m.buckets.getD (m.hash_func K % m.capacity) []) with
    | none =>
      rw [hrem] at hm'
      obtain rfl : m = m' := by simpa using hm'
      exact hWf
    | some chain2 =>
      rw [hrem] at hm'
      obtain rfl : _ = m' := by simpa using hm'
      obtain ⟨p, e0, q, hsplit, hp, he0, hc'⟩ := chain_remove_eq_some hrem
      have hi : m.hash_func K % m.capacity < m.buckets.length :=
        getD_ne_nil_lt (by rw [hsplit]; simp)
      have hchainlen : (m.buckets.getD (m.hash_func K % m.capacity) []).length =
          chain2.length + 1 := by
        rw [hsplit, hc']; simp; omega
      have hsz : 1 ≤ m.size := by
        obtain ⟨-, hold⟩ := entries_set_chain m (m.hash_func K % m.capacity) chain2 hi
        have := congrArg List.length hold
        simp only [List.length_append] at this
        have hms := hWf.2.2.1
        omega
      refine set_chain_wf m _ chain2 (m.size - 1) hWf hi ?_ ?_
      · intro x hx
        have hmemx : x ∈ m.buckets.getD (m.hash_func K % m.capacity) [] := by
          rw [hsplit]
          rcases List.mem_append.mp (hc' ▸ hx) with hx2 | hx2
          · exact List.mem_append_left _ hx2
          · exact List.mem_append_right _ (List.mem_cons_of_mem _ hx2)
        exact hWf.2.2.2 _ hi x hmemx
      · omega

/-! ### Lookup against the abstract association -/

lemma goodFor_congr {m m' : HashMap} {K V : Bytes}
    (hperm : m'.entriesList.Perm m.entriesList) (hg : GoodFor m K V) : GoodFor m' K V := by
  obtain ⟨hcount, hval⟩ := hg
  exact ⟨hperm.countP_eq _ ▸ hcount, fun e he hk => hval e (hperm.mem_iff.mp he) hk⟩

lemma distinct_congr {m m' : HashMap}
    (hperm : m'.entriesList.Perm m.entriesList) (hd : Distinct m) : Distinct m' :=
  ((hperm.map HashMapEntry.key).nodup_iff).mpr hd

lemma nodup_map_countP_le_one {α β : Type _} [BEq β] [LawfulBEq β] (f : α → β) (K : β) :
    ∀ l : List α, (l.map f).Nodup → l.countP (fun e => f e == K) ≤ 1
  | [], _ => by simp
  | x :: xs, hnd => by
    rw [List.map_cons, List.nodup_cons] at hnd
    obtain ⟨hnotin, hnd2⟩ := hnd
    rw [List.countP_cons]
    by_cases hx : f x == K
    · have hzero : xs.countP (fun e => f e == K) = 0 := by
        rw [List.countP_eq_zero]
        intro a ha hpa
        exact hnotin (by
          have h1 : f a = K := by simpa using hpa
          have h2 : f x = K := by simpa using hx
          rw [h2, ← h1]
          exact List.mem_map_of_mem f ha)
      simp [hx, hzero]
    · have ih := nodup_map_countP_le_one f K xs hnd2
      simp only [hx, Bool.false_eq_true, if_false]
      omega

lemma distinct_countP_le_one {m : HashMap} (hdist : Distinct m) (K : Bytes) :
    m.entriesList.countP (fun e => e.key == K) ≤ 1 :=
  nodup_map_countP_le_one HashMapEntry.key K m.entriesList hdist

lemma get_of_goodFor {m : HashMap} {K V : Bytes} (hWf : Wf m)
    (hfaith : FaithfulEq m.eq_func) (hK : ¬ K.length = 0) (hg : GoodFor m K V) :
    hashmap_get (some m) (some K) true true true = (1, some V) := by
  obtain ⟨hcount, hval⟩ := hg
  obtain ⟨e, he, hpe⟩ := List.countP_pos_iff.mp
    (show 0 < m.entriesList.countP (fun e => e.key == K) by omega)
  have hek : e.key = K := by simpa using hpe
  have hmem : e ∈ m.buckets.getD (m.hash_func K % m.capacity) [] := by
    have := mem_bucket_of_mem_entries hWf he
    rwa [hek] at this
  have hmatch : entry_matches m.eq_func K e = true := (entry_matches_key_eq hfaith).mpr hek
  cases hfind : chain_find m.eq_func K (m.buckets.getD (m.hash_func K % m.capacity) []) with
  | none =>
    rw [chain_find, List.find?_eq_none] at hfind
    exact absurd hmatch (by simpa using hfind e hmem)
  | some e2 =>
    have he2match : entry_matches m.eq_func K e2 = true := List.find?_some hfind
    have he2mem : e2 ∈ m.entriesList :=
      mem_getD_flatten (List.mem_of_find?_eq_some hfind)
    have he2k : e2.key = K := (entry_matches_key_eq hfaith).mp he2match
    have he2val : e2.value.getD [] = V := hval e2 he2mem he2k
    rw [hashmap_get]
    simp only [hK, if_false]
    rw [hfind]
    simp [he2val]

lemma goodFor_of_get {m : HashMap} {K V : Bytes} (_hWf : Wf m)
    (hfaith : FaithfulEq m.eq_func) (hdist : Distinct m) (hK : ¬ K.length = 0)
    (hget : hashmap_get (some m) (some K) true true true = (1, some V)) :
    GoodFor m K V := by
  rw [hashmap_get] at hget
  simp only [hK, if_false] at hget
  cases hfind : chain_find m.eq_func K (m.buckets.getD (m.hash_func K % m.capacity) []) with
  | none => rw [hfind] at hget; simp at hget
  | some e2 =>
    rw [hfind] at hget
    simp only [Bool.and_self, if_true, Prod.mk.injEq] at hget
    have he2val : e2.value.getD [] = V := by simpa using hget.2
    have he2match : entry_matches m.eq_func K e2 = true := List.find?_some hfind
    have he2mem : e2 ∈ m.entriesList :=
      mem_getD_flatten (List.mem_of_find?_eq_some hfind)
    have he2k : e2.key = K := (entry_matches_key_eq hfaith).mp he2match
    have hpos : 0 < m.entriesList.countP (fun e => e.key == K) :=
      List.countP_pos_iff.mpr ⟨e2, he2mem, by simpa using he2k⟩
    have hle := distinct_countP_le_one hdist K
    have hone : m.entriesList.countP (fun e => e.key == K) = 1 := by omega
    refine ⟨hone, fun e he hk => ?_⟩
    have : e = e2 := countP_eq_one_unique _ _ hone e he (by simpa using hk)
      e2 he2mem (by simpa using he2k)
    rw [this, he2val]

lemma insert_fields (m : HashMap) (K V : Bytes) (rOk aOk : Bool) :
    ∀ m', (hashmap_insert (some m) (some K) V rOk aOk).2 = some m' →
      m'.hash_func = m.hash_func ∧ m'.eq_func = m.eq_func ∧
      m'.load_factor = m.load_factor := by
  intro m' hm'
  obtain ⟨-, hhf, heq, hlf⟩ := insert_grow_fields m rOk
  by_cases hK : K.length = 0
  · rw [hashmap_insert] at hm'
    simp only [hK, if_true] at hm'
    obtain rfl : m = m' := by simpa using hm'
    exact ⟨rfl, rfl, rfl⟩
  · rcases hashmap_insert_cases m K V rOk aOk hK with
      ⟨st, chain2, -, hres⟩ | ⟨-, -, hres⟩ | ⟨-, -, hres⟩ <;>
    · rw [hres] at hm'
      obtain rfl : _ = m' := Option.some_inj.mp hm'
      exact ⟨hhf, heq, hlf⟩

lemma remove_fields (m : HashMap) (K : Bytes) :
    ∀ m', (hashmap_remove (some m) (some K)).2 = some m' →
      m'.hash_func = m.hash_func ∧ m'.eq_func = m.eq_func ∧
      m'.load_factor = m.load_factor ∧ m'.capacity = m.capacity := by
  intro m' hm'
  rw [hashmap_remove] at hm'
  by_cases hK : K.length = 0
  · simp only [hK, if_true] at hm'
    obtain rfl : m = m' := by simpa using hm'
    exact ⟨rfl, rfl, rfl, rfl⟩
  · simp only [hK, if_false] at hm'
    cases hrem : chain_remove m.eq_func K
        (m.buckets.getD (m.hash_func K % m.capacity) []) with
    | none =>
      rw [hrem] at hm'
      obtain rfl : m = m' := by simpa using hm'
      exact ⟨rfl, rfl, rfl, rfl⟩
    | some chain2 =>
      rw [hrem] at hm'
      obtain rfl : _ = m' := Option.some_inj.mp hm'
      exact ⟨rfl, rfl, rfl, rfl⟩

/-! ### Preservation of the abstract association -/

/-- Replacing one bucket chain by a chain with the same `K`-mass and the same
`K`-keyed members preserves the association for `K`, whatever happens to the
stored size. -/
lemma goodFor_set_bucket (m1 : HashMap) (i : Nat) (c' : List HashMapEntry) (s' : Nat)
    (K V : Bytes) (hi : i < m1.buckets.length) (hg1 : GoodFor m1 K V)
    (hcnt : c'.countP (fun e => e.key == K) =
      (m1.buckets.getD i []).countP (fun e => e.key == K))
    (hsub : ∀ x ∈ c', x.key = K → x ∈ m1.buckets.getD i []) :
    GoodFor { m1 with buckets := m1.buckets.set i c', size := s' } K V := by
  obtain ⟨hcount1, hval1⟩ := hg1
  have hset : ({ m1 with buckets := m1.buckets.set i c', size := s' } : HashMap).entriesList =
      (m1.buckets.take i).flatten ++ (c' ++ (m1.buckets.drop (i + 1)).flatten) := by
    show (m1.buckets.set i c').flatten = _
    exact flatten_set m1.buckets i c' hi
  have hold : m1.entriesList =
      (m1.buckets.take i).flatten ++
        (m1.buckets.getD i [] ++ (m1.buckets.drop (i + 1)).flatten) := by
    show m1.buckets.flatten = _
    rw [List.getD_eq_getElem _ [] hi]
    exact flatten_decomp m1.buckets i hi
  constructor
  · show List.countP _ _ = 1
    rw [hset]
    rw [hold] at hcount1
    simp only [List.countP_append] at hcount1 ⊢
    omega
  · intro x hx hxk
    rw [hset] at hx
    have hxm1 : x ∈ m1.entriesList := by
      rw [hold]
      rcases List.mem_append.mp hx with hx | hx
      · exact List.mem_append_left _ hx
      · rcases List.mem_append.mp hx with hx | hx
        · exact List.mem_append_right _ (List.mem_append_left _ (hsub x hx hxk))
        · exact List.mem_append_right _ (List.mem_append_right _ hx)
    exact hval1 x hxm1 hxk

/-- Replacing the bucket chain that carries the entire `K`-mass of the table
by one holding exactly one `K` entry, valued `V`, establishes the association
for `K`. -/
lemma goodFor_set_bucket_self (m1 : HashMap) (i : Nat) (c' : List HashMapEntry) (s' : Nat)
    (K V : Bytes) (hi : i < m1.buckets.length)
    (hmass : m1.entriesList.countP (fun e => e.key == K) =
      (m1.buckets.getD i []).countP (fun e => e.key == K))
    (hcnt1 : c'.countP (fun e => e.key == K) = 1)
    (hval' : ∀ x ∈ c', x.key = K → x.value.getD [] = V) :
    GoodFor { m1 with buckets := m1.buckets.set i c', size := s' } K V := by
  have hset : ({ m1 with buckets := m1.buckets.set i c', size := s' } : HashMap).entriesList =
      (m1.buckets.take i).flatten ++ (c' ++ (m1.buckets.drop (i + 1)).flatten) := by
    show (m1.buckets.set i c').flatten = _
    exact flatten_set m1.buckets i c' hi
  have hold : m1.entriesList =
      (m1.buckets.take i).flatten ++
        (m1.buckets.getD i [] ++ (m1.buckets.drop (i + 1)).flatten) := by
    show m1.buckets.flatten = _
    rw [List.getD_eq_getElem _ [] hi]
    exact flatten_decomp m1.buckets i hi
  have hsides : (m1.buckets.take i).flatten.countP (fun e => e.key == K) = 0 ∧
      (m1.buckets.drop (i + 1)).flatten.countP (fun e => e.key == K) = 0 := by
    rw [hold] at hmass
    simp only [List.countP_append] at hmass
    omega
  constructor
  · show List.countP _ _ = 1
    rw [hset]
    simp only [List.countP_append, hsides.1, hsides.2, hcnt1]
  · intro x hx hxk
    rw [hset] at hx
    rcases List.mem_append.mp hx with hx | hx
    · exact absurd (by simpa using hxk)
        (List.countP_eq_zero.mp hsides.1 x hx)
    · rcases List.mem_append.mp hx with hx | hx
      · exact hval' x hx hxk
      · exact absurd (by simpa using hxk)
          (List.countP_eq_zero.mp hsides.2 x hx)

lemma insert_goodFor_other (m : HashMap) (K V K2 V2 : Bytes) (rOk aOk : Bool)
    (hfaith : FaithfulEq m.eq_func) (hne : K2 ≠ K) (hg : GoodFor m K V) :
    ∀ m', (hashmap_insert (some m) (some K2) V2 rOk aOk).2 = some m' → GoodFor m' K V := by
  intro m' hm'
  by_cases hK2 : K2.length = 0
  · rw [hashmap_insert] at hm'
    simp only [hK2, if_true] at hm'
    obtain rfl : m = m' := by simpa using hm'
    exact hg
  · have hg1 : GoodFor (insert_grow m rOk) K V :=
      goodFor_congr (insert_grow_entries_perm m rOk) hg
    have hfaith1 : FaithfulEq (insert_grow m rOk).eq_func := by
      rw [(insert_grow_fields m rOk).2.2.1]; exact hfaith
    rcases hashmap_insert_cases m K2 V2 rOk aOk hK2 with
      ⟨st, chain2, hupd, hres⟩ | ⟨-, -, hres⟩ | ⟨hupd, haOk, hres⟩
    · rw [hres] at hm'
      obtain rfl : _ = m' := Option.some_inj.mp hm'
      obtain ⟨p, e0, q, hsplit, hp, he0, hc2, hst⟩ := chain_update_eq_some hupd
      have hi : (insert_grow m rOk).hash_func K2 % (insert_grow m rOk).capacity <
          (insert_grow m rOk).buckets.length :=
        getD_ne_nil_lt (by rw [hsplit]; simp)
      have he0k : e0.key = K2 := (entry_matches_key_eq hfaith1).mp he0
      have he0P : (e0.key == K) = false := by simp [he0k, hne]
      refine goodFor_set_bucket _ _ _ _ K V hi hg1 ?_ ?_
      · rw [hsplit, hc2]
        simp only [List.countP_append, List.countP_cons, he0P, Bool.false_eq_true, if_false]
      · intro x hx hxk
        rw [hc2] at hx
        rw [hsplit]
        rcases List.mem_append.mp hx with hx | hx
        · exact List.mem_append_left _ hx
        · rcases List.mem_cons.mp hx with rfl | hx
          · exact absurd hxk (by simpa using he0k.symm ▸ hne)
          · exact List.mem_append_right _ (List.mem_cons_of_mem _ hx)
    · rw [hres] at hm'
      obtain rfl : _ = m' := Option.some_inj.mp hm'
      exact hg1
    · rw [hres] at hm'
      obtain rfl : _ = m' := Option.some_inj.mp hm'
      by_cases hi : (insert_grow m rOk).hash_func K2 % (insert_grow m rOk).capacity <
          (insert_grow m rOk).buckets.length
      · have hnewP : ((K2 : Bytes) == K) = false := by simp [hne]
        refine goodFor_set_bucket _ _ _ _ K V hi hg1 ?_ ?_
        · simp only [List.countP_cons, hnewP, Bool.false_eq_true, if_false]
          omega
        · intro x hx hxk
          rcases List.mem_cons.mp hx with rfl | hx
          · exact absurd hxk (by simpa using hne)
          · exact hx
      · -- chain index out of range: `List.set` is the identity there
        have hsetid : (insert_grow m rOk).buckets.set
            ((insert_grow m rOk).hash_func K2 % (insert_grow m rOk).capacity)
            ({ key := K2, value := some V2 } ::
              (insert_grow m rOk).buckets.getD
                ((insert_grow m rOk).hash_func K2 % (insert_grow m rOk).capacity) []) =
            (insert_grow m rOk).buckets := List.set_eq_of_length_le (by omega)
        obtain ⟨hcount1, hval1⟩ := hg1
        constructor
        · show List.countP _ ((insert_grow m rOk).buckets.set _ _).flatten = 1
          rw [hsetid]
          exact hcount1
        · intro x hx hxk
          refine hval1 x ?_ hxk
          show x ∈ (insert_grow m rOk).buckets.flatten
          have hx2 : x ∈ ((insert_grow m rOk).buckets.set
              ((insert_grow m rOk).hash_func K2 % (insert_grow m rOk).capacity)
              ({ key := K2, value := some V2 } ::
                (insert_grow m rOk).buckets.getD
                  ((insert_grow m rOk).hash_func K2 % (insert_grow m rOk).capacity) [])).flatten :=
            hx
          rwa [hsetid] at hx2

lemma remove_goodFor_other (m : HashMap) (K V K2 : Bytes)
    (hfaith : FaithfulEq m.eq_func) (hne : K2 ≠ K) (hg : GoodFor m K V) :
    ∀ m', (hashmap_remove (some m) (some K2)).2 = some m' → GoodFor m' K V := by
  intro m' hm'
  rw [hashmap_remove] at hm'
  by_cases hK2 : K2.length = 0
  · simp only [hK2, if_true] at hm'
    obtain rfl : m = m' := by simpa using hm'
    exact hg
  · simp only [hK2, if_false] at hm'
    cases hrem : chain_remove m.eq_func K2
        (m.buckets.getD (m.hash_func K2 % m.capacity) []) with
    | none =>
      rw [hrem] at hm'
      obtain rfl : m = m' := by simpa using hm'
      exact hg
    | some chain2 =>
      rw [hrem] at hm'
      obtain rfl : _ = m' := Option.some_inj.mp hm'
      obtain ⟨p, e0, q, hsplit, hp, he0, hc2⟩ := chain_remove_eq_some hrem
      have hi : m.hash_func K2 % m.capacity < m.buckets.length :=
        getD_ne_nil_lt (by rw [hsplit]; simp)
      have he0k : e0.key = K2 := (entry_matches_key_eq hfaith).mp he0
      have he0P : (e0.key == K) = false := by simp [he0k, hne]
      refine goodFor_set_bucket _ _ _ _ K V hi hg ?_ ?_
      · rw [hsplit, hc2]
        simp only [List.countP_append, List.countP_cons, he0P, Bool.false_eq_true, if_false]
        omega
      · intro x hx hxk
        rw [hc2] at hx
        rw [hsplit]
        rcases List.mem_append.mp hx with hx | hx
        · exact List.mem_append_left _ hx
        · exact List.mem_append_right _ (List.mem_cons_of_mem _ hx)

/-- A successful insert of `(K, V)` into a well-formed table with distinct
keys leaves the table associating exactly `V` to `K`. -/
lemma insert_goodFor_self (m : HashMap) (K V : Bytes) (rOk aOk : Bool) (hWf : Wf m)
    (hfaith : FaithfulEq m.eq_func) (hdist : Distinct m) (hK : ¬ K.length = 0)
    (hsucc : (hashmap_insert (some m) (some K) V rOk aOk).1 = 0) :
    ∀ m', (hashmap_insert (some m) (some K) V rOk aOk).2 = some m' → GoodFor m' K V := by
  intro m' hm'
  have hWf1 := insert_grow_wf m rOk hWf
  have hfaith1 : FaithfulEq (insert_grow m rOk).eq_func := by
    rw [(insert_grow_fields m rOk).2.2.1]; exact hfaith
  have hdist1 : Distinct (insert_grow m rOk) :=
    distinct_congr (insert_grow_entries_perm m rOk) hdist
  rcases hashmap_insert_cases m K V rOk aOk hK with
    ⟨st, chain2, hupd, hres⟩ | ⟨hupd, haOk, hres⟩ | ⟨hupd, haOk, hres⟩
  · -- update path
    rw [hres] at hm' hsucc
    obtain rfl : _ = m' := Option.some_inj.mp hm'
    have hst0 : st = 0 := by simpa using hsucc
    obtain ⟨p, e0, q, hsplit, hp, he0, hc2, hst⟩ := chain_update_eq_some hupd
    have haOk : aOk = true := by
      cases aOk with
      | true => rfl
      | false => rw [hst0] at hst; simp at hst
    subst haOk
    simp only [if_pos] at hc2
    have hi : (insert_grow m rOk).hash_func K % (insert_grow m rOk).capacity <
        (insert_grow m rOk).buckets.length :=
      getD_ne_nil_lt (by rw [hsplit]; simp)
    have he0k : e0.key = K := (entry_matches_key_eq hfaith1).mp he0
    have he0P : (e0.key == K) = true := by simp [he0k]
    have hold : (insert_grow m rOk).entriesList =
        ((insert_grow m rOk).buckets.take
            ((insert_grow m rOk).hash_func K % (insert_grow m rOk).capacity)).flatten ++
          ((insert_grow m rOk).buckets.getD
              ((insert_grow m rOk).hash_func K % (insert_grow m rOk).capacity) [] ++
            ((insert_grow m rOk).buckets.drop
                ((insert_grow m rOk).hash_func K % (insert_grow m rOk).capacity + 1)).flatten) := by
      show (insert_grow m rOk).buckets.flatten = _
      rw [List.getD_eq_getElem _ [] hi]
      exact flatten_decomp (insert_grow m rOk).buckets _ hi
    have hle := distinct_countP_le_one hdist1 K
    have hchaincnt : ((insert_grow m rOk).buckets.getD
        ((insert_grow m rOk).hash_func K % (insert_grow m rOk).capacity) []).countP
          (fun e => e.key == K) =
        p.countP (fun e => e.key == K) + 1 + q.countP (fun e => e.key == K) := by
      rw [hsplit]
      simp only [List.countP_append, List.countP_cons, he0P, if_pos]
      omega
    have hsidecnt : p.countP (fun e => e.key == K) = 0 ∧
        q.countP (fun e => e.key == K) = 0 := by
      rw [hold] at hle
      simp only [List.countP_append] at hle
      omega
    refine goodFor_set_bucket_self _ _ _ _ K V hi ?_ ?_ ?_
    · rw [hold] at hle ⊢
      simp only [List.countP_append] at hle ⊢
      omega
    · rw [hc2]
      simp only [List.countP_append, List.countP_cons]
      have : (({ key := e0.key, value := some V } : HashMapEntry).key == K) = true := by
        simpa using he0P
      rw [this]
      simp only [hsidecnt.1, hsidecnt.2, if_pos]
    · intro x hx hxk
      rw [hc2] at hx
      rcases List.mem_append.mp hx with hx | hx
      · exact absurd (by simpa using hxk) (List.countP_eq_zero.mp hsidecnt.1 x hx)
      · rcases List.mem_cons.mp hx with rfl | hx
        · rfl
        · exact absurd (by simpa using hxk) (List.countP_eq_zero.mp hsidecnt.2 x hx)
  · -- allocation failure: the insert did not succeed
    rw [hres] at hsucc
    simp at hsucc
  · -- new-key path
    rw [hres] at hm'
    obtain rfl : _ = m' := Option.some_inj.mp hm'
    have hi : (insert_grow m rOk).hash_func K % (insert_grow m rOk).capacity <
        (insert_grow m rOk).buckets.length := by
      rw [← hWf1.1]
      have hpos := hWf1.2.1
      exact Nat.mod_lt _ (by omega)
    have hchain0 : ((insert_grow m rOk).buckets.getD
        ((insert_grow m rOk).hash_func K % (insert_grow m rOk).capacity) []).countP
          (fun e => e.key == K) = 0 := by
      rw [List.countP_eq_zero]
      intro e he hpe
      have hek : e.key = K := by simpa using hpe
      have := chain_update_eq_none.mp hupd e he
      rw [(entry_matches_key_eq hfaith1).mpr hek] at this
      cases this
    have hglobal0 : (insert_grow m rOk).entriesList.countP (fun e => e.key == K) = 0 := by
      rw [List.countP_eq_zero]
      intro e he hpe
      have hek : e.key = K := by simpa using hpe
      have hmem := mem_bucket_of_mem_entries hWf1 he
      rw [hek] at hmem
      exact absurd (by simpa using hpe)
        (by simpa using List.countP_eq_zero.mp hchain0 e hmem)
    refine goodFor_set_bucket_self _ _ _ _ K V hi (by rw [hglobal0, hchain0]) ?_ ?_
    · simp only [List.countP_cons, hchain0]
      simp
    · intro x hx hxk
      rcases List.mem_cons.mp hx with rfl | hx
      · rfl
      · exact absurd (by simpa using hxk) (List.countP_eq_zero.mp hchain0 x hx)

/-! ### Operation sequences -/

lemma insert_some (m : HashMap) (K : Bytes) (V : Bytes) (rOk aOk : Bool) :
    ∃ m', (hashmap_insert (some m) (some K) V rOk aOk).2 = some m' := by
  by_cases hK : K.length = 0
  · rw [hashmap_insert]
    simp [hK]
  · rcases hashmap_insert_cases m K V rOk aOk hK with
      ⟨st, chain2, -, hres⟩ | ⟨-, -, hres⟩ | ⟨-, -, hres⟩ <;> exact ⟨_, by rw [hres]⟩

lemma remove_some (m : HashMap) (K : Bytes) :
    ∃ m', (hashmap_remove (some m) (some K)).2 = some m' := by
  rw [hashmap_remove]
  by_cases hK : K.length = 0
  · simp [hK]
  · simp only [hK, if_false]
    cases hrem : chain_remove m.eq_func K
        (m.buckets.getD (m.hash_func K % m.capacity) []) with
    | none => exact ⟨m, rfl⟩
    | some chain2 => exact ⟨_, rfl⟩

lemma applyOp_wf (m : HashMap) (op : Op) (hWf : Wf m) : Wf (applyOp m op) := by
  cases op with
  | ins K2 V2 rOk aOk =>
    obtain ⟨m', hm'⟩ := insert_some m K2 V2 rOk aOk
    rw [applyOp, hm']
    exact insert_wf m K2 V2 rOk aOk hWf m' hm'
  | rem K2 =>
    obtain ⟨m', hm'⟩ := remove_some m K2
    rw [applyOp, hm']
    exact remove_wf m K2 hWf m' hm'
  | res c ok => exact resize_wf m c ok hWf

lemma applyOp_eq_func (m : HashMap) (op : Op) : (applyOp m op).eq_func = m.eq_func := by
  cases op with
  | ins K2 V2 rOk aOk =>
    obtain ⟨m', hm'⟩ := insert_some m K2 V2 rOk aOk
    rw [applyOp, hm']
    exact (insert_fields m K2 V2 rOk aOk m' hm').2.1
  | rem K2 =>
    obtain ⟨m', hm'⟩ := remove_some m K2
    rw [applyOp, hm']
    exact (remove_fields m K2 m' hm').2.1
  | res c ok => exact (resize_fields m c ok).2.2.1

lemma applyOp_goodFor (m : HashMap) (op : Op) (K V : Bytes)
    (hfaith : FaithfulEq m.eq_func) (hop : op.touchesKey K = false)
    (hg : GoodFor m K V) : GoodFor (applyOp m op) K V := by
  cases op with
  | ins K2 V2 rOk aOk =>
    have hne : K2 ≠ K := by simpa [Op.touchesKey] using hop
    obtain ⟨m', hm'⟩ := insert_some m K2 V2 rOk aOk
    rw [applyOp, hm']
    exact insert_goodFor_other m K V K2 V2 rOk aOk hfaith hne hg m' hm'
  | rem K2 =>
    have hne : K2 ≠ K := by simpa [Op.touchesKey] using hop
    obtain ⟨m', hm'⟩ := remove_some m K2
    rw [applyOp, hm']
    exact remove_goodFor_other m K V K2 hfaith hne hg m' hm'
  | res c ok =>
    exact goodFor_congr (resize_entries_perm m c ok) hg

lemma foldl_applyOp_goodFor (K V : Bytes) :
    ∀ (ops : List Op) (m : HashMap), Wf m → FaithfulEq m.eq_func → GoodFor m K V →
      (∀ op ∈ ops, op.touchesKey K = false) →
      Wf (ops.foldl applyOp m) ∧ FaithfulEq (ops.foldl applyOp m).eq_func ∧
        GoodFor (ops.foldl applyOp m) K V
  | [], m, hWf, hfaith, hg, _ => ⟨hWf, hfaith, hg⟩
  | op :: ops, m, hWf, hfaith, hg, hops => by
    rw [List.foldl_cons]
    refine foldl_applyOp_goodFor K V ops (applyOp m op) (applyOp_wf m op hWf) ?_ ?_ ?_
    · rw [applyOp_eq_func]; exact hfaith
    · exact applyOp_goodFor m op K V hfaith (hops op (List.mem_cons_self op ops)) hg
    · exact fun o ho => hops o (List.mem_cons_of_mem op ho)

/-! ### Remaining auxiliary lemmas -/

lemma hasKey_congr {m m' : HashMap} {K : Bytes}
    (hperm : m'.entriesList.Perm m.entriesList) (heq : m'.eq_func = m.eq_func) :
    hasKey m' K = hasKey m K := by
  rw [hasKey, hasKey, heq]
  by_cases h : m.entriesList.any (entry_matches m.eq_func K) = true
  · rw [h]
    obtain ⟨x, hx, hpx⟩ := List.any_eq_true.mp h
    exact List.any_eq_true.mpr ⟨x, hperm.mem_iff.mpr hx, hpx⟩
  · rw [Bool.not_eq_true] at h
    rw [h, List.any_eq_false]
    rw [List.any_eq_false] at h
    exact fun x hx => h x (hperm.mem_iff.mp hx)

lemma insert_grow_false (m : HashMap) : insert_grow m false = m := by
  rw [insert_grow]
  split_ifs
  · by_cases hs : (hashmap_resize m (m.capacity * 2) false).1 = 0
    · obtain ⟨-, hok⟩ := resize_success _ _ _ hs
      cases hok
    · rw [resize_failure _ _ _ hs]
  · rfl

lemma insert_grow_capacity (m : HashMap) (rOk : Bool) :
    (insert_grow m rOk).capacity = m.capacity ∨
    (insert_grow m rOk).capacity = 2 * m.capacity := by
  rw [insert_grow]
  split_ifs
  · by_cases hs : (hashmap_resize m (m.capacity * 2) rOk).1 = 0
    · right
      rw [resize_capacity _ _ _ hs]
      ring
    · left
      rw [resize_failure _ _ _ hs]
  · left
    rfl

lemma ratio_bound (s c cap2 size2 : Nat) (hc : 1 ≤ c)
    (hcap : cap2 = c ∨ cap2 = 2 * c) (hsz : size2 ≤ s + 1) :
    (size2 : ℚ) / (cap2 : ℚ) ≤ (s : ℚ) / (c : ℚ) + 1 / (cap2 : ℚ) := by
  have hcq : (0 : ℚ) < (c : ℚ) := by exact_mod_cast hc
  rcases hcap with rfl | rfl
  · rw [div_add_div_same, div_le_div_iff_of_pos_right hcq]
    exact_mod_cast hsz
  · have h2cq : (0 : ℚ) < ((2 * c : Nat) : ℚ) := by
      push_cast
      linarith
    have hsc : (s : ℚ) / (c : ℚ) = ((2 * s : Nat) : ℚ) / ((2 * c : Nat) : ℚ) := by
      push_cast
      rw [mul_div_mul_left _ _ (two_ne_zero)]
    rw [hsc, div_add_div_same, div_le_div_iff_of_pos_right h2cq]
    have hs0 : (0 : ℚ) ≤ (s : ℚ) := by positivity
    have hszq : (size2 : ℚ) ≤ (s : ℚ) + 1 := by exact_mod_cast hsz
    push_cast
    linarith

lemma get_eq_of_find (m2 : HashMap) (K : Bytes) (hK : ¬ K.length = 0) (e2 : HashMapEntry)
    (hfind : chain_find m2.eq_func K
      (m2.buckets.getD (m2.hash_func K % m2.capacity) []) = some e2) :
    hashmap_get (some m2) (some K) true true true = (1, some (e2.value.getD [])) := by
  rw [hashmap_get]
  simp only [hK, if_false]
  rw [hfind]
  simp

/-! ### Claim theorems -/

/-- C3: for every map state and every successful resize (triggered or forced),
the multiset of entry nodes (key-value pairs) is exactly preserved — no entry
duplicated, none lost — the structural invariant holds afterwards, and every
key retrievable before the resize is still retrievable afterwards with its
last-written value. -/
theorem C3_resize_preserves_entries (m : HashMap) (c : Nat) (ok : Bool) (hWf : Wf m)
    (hsucc : (hashmap_resize m c ok).1 = 0) :
    ((hashmap_resize m c ok).2.entriesList : Multiset HashMapEntry) =
      (m.entriesList : Multiset HashMapEntry) ∧
    Wf (hashmap_resize m c ok).2 ∧
    ∀ K V : Bytes, ¬ K.length = 0 → FaithfulEq m.eq_func → Distinct m →
      hashmap_get (some m) (some K) true true true = (1, some V) →
      hashmap_get (some (hashmap_resize m c ok).2) (some K) true true true = (1, some V) := by
  refine ⟨Multiset.coe_eq_coe.mpr (resize_entries_perm m c ok), resize_wf m c ok hWf, ?_⟩
  intro K V hK hfaith hdist hget
  have hg := goodFor_of_get hWf hfaith hdist hK hget
  have hg2 := goodFor_congr (resize_entries_perm m c ok) hg
  have hfaith2 : FaithfulEq (hashmap_resize m c ok).2.eq_func := by
    rw [(resize_fields m c ok).2.2.1]
    exact hfaith
  exact get_of_goodFor (resize_wf m c ok hWf) hfaith2 hK hg2

/-- C3 witness: resizing the concrete one-entry map from capacity 1 to 4
preserves the entry multiset and retrievability of key `[1]`. -/
theorem C3_resize_preserves_entries_witness :
    ((hashmap_resize exMap 4 true).2.entriesList : Multiset HashMapEntry) =
      (exMap.entriesList : Multiset HashMapEntry) ∧
    hashmap_get (some (hashmap_resize exMap 4 true).2) (some [1]) true true true =
      (1, some [2, 3]) :=
  ⟨(C3_resize_preserves_entries exMap 4 true (by decide) rfl).1,
   (C3_resize_preserves_entries exMap 4 true (by decide) rfl).2.2 [1] [2, 3]
     (by decide) default_eq_faithful (by decide) (by decide)⟩

/-- C4: initialization establishes the structural invariant (capacity ≥ 1,
stored capacity equal to the bucket count, size counting the entry nodes, and
every entry placed in the bucket its key hashes to), and insert, remove and
resize preserve it.  `hashmap_get` takes the map as a read-only argument and
performs no mutation, so it preserves the invariant trivially. -/
theorem C4_operations_preserve_invariant (m : HashMap) (K V : Bytes) (capacity : Nat)
    (hf : Option HashFunc) (ef : Option EqFunc) (lf : ℚ) (cOk rOk aOk : Bool) (c : Nat)
    (hWf : Wf m) :
    (∀ m0, (hashmap_init true capacity hf ef lf cOk).2 = some m0 → Wf m0) ∧
    (∀ m', (hashmap_insert (some m) (some K) V rOk aOk).2 = some m' → Wf m') ∧
    (∀ m', (hashmap_remove (some m) (some K)).2 = some m' → Wf m') ∧
    Wf (hashmap_resize m c cOk).2 :=
  ⟨init_wf true capacity hf ef lf cOk, insert_wf m K V rOk aOk hWf,
   remove_wf m K hWf, resize_wf m c cOk hWf⟩

/-- C4 witness at concrete arguments. -/
theorem C4_operations_preserve_invariant_witness :
    Wf (hashmap_resize exMap 3 true).2 :=
  (C4_operations_preserve_invariant exMap [1] [7] 16 none none 1 true true true 3
    (by decide)).2.2.2

/-- C5: when the bucket-array allocation inside resize fails, the map is
returned completely unchanged with an error status; an insert whose growth
step was refused still succeeds (status 0) against the unresized table, whose
capacity is unchanged. -/
theorem C5_resize_failure_nonfatal (m : HashMap) (c : Nat) (K V : Bytes)
    (hK : ¬ K.length = 0) :
    hashmap_resize m c false = (-1, m) ∧
    (hashmap_insert (some m) (some K) V false true).1 = 0 ∧
    ∀ m', (hashmap_insert (some m) (some K) V false true).2 = some m' →
      m'.capacity = m.capacity := by
  refine ⟨?_, ?_, ?_⟩
  · by_cases hs : (hashmap_resize m c false).1 = 0
    · obtain ⟨-, hok⟩ := resize_success _ _ _ hs
      cases hok
    · exact resize_failure _ _ _ hs
  · rcases hashmap_insert_cases m K V false true hK with
      ⟨st, chain2, hupd, hres⟩ | ⟨-, hfalse, -⟩ | ⟨-, -, hres⟩
    · obtain ⟨p, e0, q, -, -, -, -, hst⟩ := chain_update_eq_some hupd
      rw [hres]
      simpa using hst
    · cases hfalse
    · rw [hres]
  · intro m' hm'
    rcases hashmap_insert_cases m K V false true hK with
      ⟨st, chain2, hupd, hres⟩ | ⟨-, hfalse, -⟩ | ⟨-, -, hres⟩
    · rw [hres] at hm'
      obtain rfl : _ = m' := Option.some_inj.mp hm'
      show (insert_grow m false).capacity = m.capacity
      rw [insert_grow_false]
    · cases hfalse
    · rw [hres] at hm'
      obtain rfl : _ = m' := Option.some_inj.mp hm'
      show (insert_grow m false).capacity = m.capacity
      rw [insert_grow_false]

/-- C5 witness at a concrete map: the resize refusal returns the map intact,
and an insert with the growth step refused still succeeds. -/
theorem C5_resize_failure_nonfatal_witness :
    hashmap_resize exMap 3 false = (-1, exMap) ∧
    (hashmap_insert (some exMap) (some [4]) [9] false true).1 = 0 :=
  ⟨(C5_resize_failure_nonfatal exMap 3 [4] [9] (by decide)).1,
   (C5_resize_failure_nonfatal exMap 3 [4] [9] (by decide)).2.1⟩

/-- C8: initialization substitutes capacity 16 for capacity 0, load factor
0.75 for a non-positive load factor, and the default Jenkins-style hash and
byte-wise comparison for missing strategy functions; when the bucket array
cannot be allocated it returns an error and produces no initialized map. -/
theorem C8_init_defaults (capacity : Nat) (hf : Option HashFunc) (ef : Option EqFunc)
    (lf : ℚ) :
    (∃ m0, (hashmap_init true capacity hf ef lf true).2 = some m0 ∧
      (hashmap_init true capacity hf ef lf true).1 = 0 ∧
      (capacity = 0 → m0.capacity = DEFAULT_INITIAL_CAPACITY) ∧
      (capacity ≠ 0 → m0.capacity = capacity) ∧
      (lf ≤ 0 → m0.load_factor = DEFAULT_LOAD_FACTOR) ∧
      (0 < lf → m0.load_factor = lf) ∧
      (hf = none → m0.hash_func = default_hash) ∧
      (ef = none → m0.eq_func = default_eq)) ∧
    hashmap_init true capacity hf ef lf false = (-1, none) := by
  constructor
  · refine ⟨_, rfl, rfl, ?_, ?_, ?_, ?_, ?_, ?_⟩
    · intro h
      show (if capacity = 0 then DEFAULT_INITIAL_CAPACITY else capacity) = _
      rw [if_pos h]
    · intro h
      show (if capacity = 0 then DEFAULT_INITIAL_CAPACITY else capacity) = _
      rw [if_neg h]
    · intro h
      show (if lf ≤ 0 then DEFAULT_LOAD_FACTOR else lf) = _
      rw [if_pos h]
    · intro h
      show (if lf ≤ 0 then DEFAULT_LOAD_FACTOR else lf) = _
      rw [if_neg (by exact not_le.mpr h)]
    · intro h
      subst h
      rfl
    · intro h
      subst h
      rfl
  · rfl

/-- C8 witness: all-default initialization yields capacity 16 and load factor
3/4. -/
theorem C8_init_defaults_witness :
    ∃ m0, (hashmap_init true 0 none none 0 true).2 = some m0 ∧
      m0.capacity = 16 ∧ m0.load_factor = DEFAULT_LOAD_FACTOR := by
  obtain ⟨⟨m0, hm0, -, hcap, -, hlf, -, -, -⟩, -⟩ := C8_init_defaults 0 none none 0
  exact ⟨m0, hm0, by rw [hcap rfl]; rfl, hlf le_rfl⟩

/-- C9: a null map, null key pointer, or zero-length key makes insert, get
and remove return the error status -1 synchronously, with the map unchanged;
a merely absent key makes get and remove return the distinct non-error
not-found status 0, again with the map unchanged. -/
theorem C9_invalid_arguments (m : HashMap) (K V : Bytes) (k2 : Option Bytes)
    (rOk aOk ov os gOk : Bool) (hK : ¬ K.length = 0) (habsent : hasKey m K = false) :
    hashmap_insert none k2 V rOk aOk = (-1, none) ∧
    hashmap_get none k2 ov os gOk = (-1, none) ∧
    hashmap_remove none k2 = (-1, none) ∧
    hashmap_insert (some m) none V rOk aOk = (-1, some m) ∧
    hashmap_get (some m) none ov os gOk = (-1, none) ∧
    hashmap_remove (some m) none = (-1, some m) ∧
    hashmap_insert (some m) (some []) V rOk aOk = (-1, some m) ∧
    hashmap_get (some m) (some []) ov os gOk = (-1, none) ∧
    hashmap_remove (some m) (some []) = (-1, some m) ∧
    hashmap_get (some m) (some K) ov os gOk = (0, none) ∧
    hashmap_remove (some m) (some K) = (0, some m) := by
  refine ⟨rfl, rfl, rfl, rfl, rfl, rfl, rfl, rfl, rfl, ?_, ?_⟩
  · have hfind : chain_find m.eq_func K
        (m.buckets.getD (m.hash_func K % m.capacity) []) = none := by
      rw [chain_find, List.find?_eq_none]
      intro e he
      simp [not_hasKey_chain habsent e he]
    rw [hashmap_get]
    simp only [hK, if_false]
    rw [hfind]
  · have hrem : chain_remove m.eq_func K
        (m.buckets.getD (m.hash_func K % m.capacity) []) = none :=
      chain_remove_eq_none.mpr (fun e he => not_hasKey_chain habsent e he)
    rw [hashmap_remove]
    simp only [hK, if_false]
    rw [hrem]

/-- C9 witness: concrete invalid and absent-key calls. -/
theorem C9_invalid_arguments_witness :
    hashmap_insert none (some [1]) [5] true true = (-1, none) ∧
    hashmap_insert (some exMap) (some []) [5] true true = (-1, some exMap) ∧
    hashmap_get (some exMap) (some [0]) true true true = (0, none) ∧
    hashmap_remove (some exMap) (some [0]) = (0, some exMap) := by
  obtain h := C9_invalid_arguments exMap [0] [5] (some [1]) true true true true true
    (by decide) (by decide)
  exact ⟨h.1, h.2.2.2.2.2.2.1, h.2.2.2.2.2.2.2.2.2.1, h.2.2.2.2.2.2.2.2.2.2⟩

/-- C10: for a present key, get with a null `out_val` or null `out_size`
pointer performs no output allocation and returns 1 (found) regardless of
whether an allocation could have succeeded, so it serves as a pure membership
test that cannot fail with an allocation error. -/
theorem C10_get_membership_test (m : HashMap) (K : Bytes) (hWf : Wf m)
    (hfaith : FaithfulEq m.eq_func) (hK : ¬ K.length = 0) (hmem : hasKey m K = true)
    (ov os aOk : Bool) (hnull : ov = false ∨ os = false) :
    hashmap_get (some m) (some K) ov os aOk = (1, none) := by
  obtain ⟨e, he, hm⟩ := hasKey_mem_chain hWf hfaith hmem
  cases hfind : chain_find m.eq_func K
      (m.buckets.getD (m.hash_func K % m.capacity) []) with
  | none =>
    rw [chain_find, List.find?_eq_none] at hfind
    exact absurd hm (by simpa using hfind e he)
  | some e2 =>
    rw [hashmap_get]
    simp only [hK, if_false]
    rw [hfind]
    have hff : (ov && os) = false := by
      rcases hnull with rfl | rfl
      · rfl
      · simp
    rw [hff]
    simp

/-- C10 witness: key `[1]` is present in `exMap`; get with a null `out_val`
reports found without failing even when allocation would fail. -/
theorem C10_get_membership_test_witness :
    hashmap_get (some exMap) (some [1]) false true false = (1, none) :=
  C10_get_membership_test exMap [1] (by decide) default_eq_faithful (by decide)
    (by decide) false true false (Or.inl rfl)

/-- C6: inserting an already-present key with a new value succeeds, replaces
the stored value buffer (recording the new length, here the byte-list length),
leaves the reported size unchanged, and a subsequent get returns only the new
value. -/
theorem C6_update_semantics (m : HashMap) (K V2 : Bytes) (rOk : Bool) (hWf : Wf m)
    (hfaith : FaithfulEq m.eq_func) (hK : ¬ K.length = 0) (hmem : hasKey m K = true) :
    (hashmap_insert (some m) (some K) V2 rOk true).1 = 0 ∧
    ∀ m', (hashmap_insert (some m) (some K) V2 rOk true).2 = some m' →
      m'.size = m.size ∧
      hashmap_get (some m') (some K) true true true = (1, some V2) := by
  have hWf1 := insert_grow_wf m rOk hWf
  have hfaith1 : FaithfulEq (insert_grow m rOk).eq_func := by
    rw [(insert_grow_fields m rOk).2.2.1]
    exact hfaith
  have hmem1 : hasKey (insert_grow m rOk) K = true := by
    rw [hasKey_congr (insert_grow_entries_perm m rOk) (insert_grow_fields m rOk).2.2.1]
    exact hmem
  obtain ⟨e, he, hme⟩ := hasKey_mem_chain hWf1 hfaith1 hmem1
  have hupd_ne : ¬ chain_update (insert_grow m rOk).eq_func K V2 true
      ((insert_grow m rOk).buckets.getD
        ((insert_grow m rOk).hash_func K % (insert_grow m rOk).capacity) []) = none := by
    intro hnone
    exact absurd hme (by simp [chain_update_eq_none.mp hnone e he])
  rcases hashmap_insert_cases m K V2 rOk true hK with
    ⟨st, chain2, hupd, hres⟩ | ⟨hupd, -, -⟩ | ⟨hupd, -, -⟩
  · obtain ⟨p, e0, q, hsplit, hp, he0, hc2, hst⟩ := chain_update_eq_some hupd
    have hst0 : st = 0 := by simpa using hst
    have hi : (insert_grow m rOk).hash_func K % (insert_grow m rOk).capacity <
        (insert_grow m rOk).buckets.length :=
      getD_ne_nil_lt (by rw [hsplit]; simp)
    simp only [if_pos] at hc2
    constructor
    · rw [hres]
      exact hst0
    · intro m' hm'
      rw [hres] at hm'
      obtain rfl : _ = m' := Option.some_inj.mp hm'
      refine ⟨(insert_grow_fields m rOk).1, ?_⟩
      have hgetD : ((insert_grow m rOk).buckets.set
          ((insert_grow m rOk).hash_func K % (insert_grow m rOk).capacity) chain2).getD
            ((insert_grow m rOk).hash_func K % (insert_grow m rOk).capacity) [] = chain2 :=
        getD_set_eq _ _ _ _ hi
      have hfind : chain_find (insert_grow m rOk).eq_func K chain2 =
          some { key := e0.key, value := some V2 } := by
        rw [hc2, chain_find, find?_append_left_none _ hp]
        exact List.find?_cons_of_pos _ (by simpa [entry_matches] using he0)
      have hfind2 : chain_find (insert_grow m rOk).eq_func K
          (((insert_grow m rOk).buckets.set
            ((insert_grow m rOk).hash_func K % (insert_grow m rOk).capacity) chain2).getD
              ((insert_grow m rOk).hash_func K % (insert_grow m rOk).capacity) []) =
          some { key := e0.key, value := some V2 } := by
        rw [hgetD]
        exact hfind
      exact get_eq_of_find
        { insert_grow m rOk with
            buckets := (insert_grow m rOk).buckets.set
              ((insert_grow m rOk).hash_func K % (insert_grow m rOk).capacity) chain2 }
        K hK { key := e0.key, value := some V2 } hfind2
  · exact absurd hupd hupd_ne
  · exact absurd hupd hupd_ne

/-- C6 witness: overwriting key `[1]` in the concrete map keeps size 1 and
get returns the new value `[7]`. -/
theorem C6_update_semantics_witness :
    (hashmap_insert (some exMap) (some [1]) [7] true true).1 = 0 ∧
    (((hashmap_insert (some exMap) (some [1]) [7] true true).2).getD dummyMap).size =
      exMap.size ∧
    hashmap_get (some (((hashmap_insert (some exMap) (some [1]) [7] true true).2).getD
      dummyMap)) (some [1]) true true true = (1, some [7]) := by
  obtain ⟨h1, h2⟩ := C6_update_semantics exMap [1] [7] true (by decide)
    default_eq_faithful (by decide) (by decide)
  obtain ⟨hsz, hget⟩ := h2
    (((hashmap_insert (some exMap) (some [1]) [7] true true).2).getD dummyMap) rfl
  exact ⟨h1, hsz, hget⟩

/-- C2: after a successful insert of `(K, V)` into a well-formed map with a
faithful equality and distinct stored keys, and through any later sequence of
inserts, removes and resizes that never addresses `K` (whatever their
allocation outcomes), `get(K)` reports found together with a byte-for-byte
copy of `V`. -/
theorem C2_roundtrip (m0 : HashMap) (K V : Bytes) (rOk aOk : Bool) (ops : List Op)
    (hWf : Wf m0) (hfaith : FaithfulEq m0.eq_func) (hdist : Distinct m0)
    (hK : ¬ K.length = 0)
    (hsucc : (hashmap_insert (some m0) (some K) V rOk aOk).1 = 0)
    (hops : ∀ op ∈ ops, op.touchesKey K = false) :
    ∀ m1, (hashmap_insert (some m0) (some K) V rOk aOk).2 = some m1 →
      hashmap_get (some (ops.foldl applyOp m1)) (some K) true true true = (1, some V) := by
  intro m1 hm1
  have hWf1 := insert_wf m0 K V rOk aOk hWf m1 hm1
  have hfaith1 : FaithfulEq m1.eq_func := by
    rw [(insert_fields m0 K V rOk aOk m1 hm1).2.1]
    exact hfaith
  have hg1 := insert_goodFor_self m0 K V rOk aOk hWf hfaith hdist hK hsucc m1 hm1
  obtain ⟨hWfN, hfaithN, hgN⟩ := foldl_applyOp_goodFor K V ops m1 hWf1 hfaith1 hg1 hops
  exact get_of_goodFor hWfN hfaithN hK hgN

/-- C2 witness: insert `[1] ↦ [7]`, then a forced resize, an insert and a
remove of the unrelated key `[2]`; get `[1]` still returns `[7]`. -/
theorem C2_roundtrip_witness :
    hashmap_get (some ([Op.res 5 true, Op.ins [2] [9] true true, Op.rem [2]].foldl applyOp
      (((hashmap_insert (some exMap) (some [1]) [7] true true).2).getD dummyMap)))
      (some [1]) true true true = (1, some [7]) :=
  C2_roundtrip exMap [1] [7] true true [Op.res 5 true, Op.ins [2] [9] true true, Op.rem [2]]
    (by decide) default_eq_faithful (by decide) (by decide) (by decide) (by decide)
    (((hashmap_insert (some exMap) (some [1]) [7] true true).2).getD dummyMap) rfl

/-- C1 counterexample: on the concrete one-entry map, an insert that updates
the existing key `[1]` and whose value allocation fails returns the error
status, as the claim says, but the map is NOT left unchanged: the entry values
observed after the call differ from those before it (the old value buffer of
the matched entry has already been released). -/
theorem C1_counterexample :
    (hashmap_insert (some exMap) (some [1]) [9] true false).1 = -1 ∧
    ((hashmap_insert (some exMap) (some [1]) [9] true false).2.map
      (fun m2 => m2.entriesList.map HashMapEntry.value)) ≠
      (some (exMap.entriesList.map HashMapEntry.value)) := by
  exact ⟨by decide, by decide⟩

/-- C1 amended: when every data allocation of the insert call fails, insert
returns the error status -1, the reported size is unchanged, no partial entry
is linked in (the multiset of stored keys is exactly as before), every entry
present afterwards is either an original entry or the matched entry with its
old value buffer already released, and on the new-key path (no chain entry
matches the key) the table is exactly the one left by the preceding growth
step — whose capacity may legitimately differ from the initial one when that
growth succeeded. -/
theorem C1_amended_alloc_failure (m : HashMap) (K V : Bytes) (rOk : Bool)
    (hK : ¬ K.length = 0) :
    (hashmap_insert (some m) (some K) V rOk false).1 = -1 ∧
    ∀ m', (hashmap_insert (some m) (some K) V rOk false).2 = some m' →
      m'.size = m.size ∧
      m'.capacity = (insert_grow m rOk).capacity ∧
      Multiset.map HashMapEntry.key (m'.entriesList : Multiset HashMapEntry) =
        Multiset.map HashMapEntry.key (m.entriesList : Multiset HashMapEntry) ∧
      (∀ e2 ∈ m'.entriesList, e2 ∈ m.entriesList ∨
        (entry_matches m.eq_func K e2 = true ∧ e2.value = none)) ∧
      ((∀ e ∈ m.entriesList, entry_matches m.eq_func K e = false) →
        m' = insert_grow m rOk) := by
  have hperm := insert_grow_entries_perm m rOk
  have heqf : (insert_grow m rOk).eq_func = m.eq_func := (insert_grow_fields m rOk).2.2.1
  have hsz1 : (insert_grow m rOk).size = m.size := (insert_grow_fields m rOk).1
  rcases hashmap_insert_cases m K V rOk false hK with
    ⟨st, chain2, hupd, hres⟩ | ⟨hupd, -, hres⟩ | ⟨-, hfalse, -⟩
  · -- update path: the matched entry's value buffer is already freed
    obtain ⟨p, e0, q, hsplit, hp, he0, hc2, hst⟩ := chain_update_eq_some hupd
    simp only [Bool.false_eq_true, if_false] at hc2 hst
    have hi : (insert_grow m rOk).hash_func K % (insert_grow m rOk).capacity <
        (insert_grow m rOk).buckets.length :=
      getD_ne_nil_lt (by rw [hsplit]; simp)
    have hset : ({ insert_grow m rOk with
        buckets := (insert_grow m rOk).buckets.set
          ((insert_grow m rOk).hash_func K % (insert_grow m rOk).capacity) chain2 } :
          HashMap).entriesList =
        ((insert_grow m rOk).buckets.take
            ((insert_grow m rOk).hash_func K % (insert_grow m rOk).capacity)).flatten ++
          (chain2 ++ ((insert_grow m rOk).buckets.drop
            ((insert_grow m rOk).hash_func K % (insert_grow m rOk).capacity + 1)).flatten) := by
      show ((insert_grow m rOk).buckets.set _ chain2).flatten = _
      exact flatten_set _ _ _ hi
    have hold : (insert_grow m rOk).entriesList =
        ((insert_grow m rOk).buckets.take
            ((insert_grow m rOk).hash_func K % (insert_grow m rOk).capacity)).flatten ++
          ((p ++ e0 :: q) ++ ((insert_grow m rOk).buckets.drop
            ((insert_grow m rOk).hash_func K % (insert_grow m rOk).capacity + 1)).flatten) := by
      show (insert_grow m rOk).buckets.flatten = _
      rw [← hsplit, List.getD_eq_getElem _ [] hi]
      exact flatten_decomp _ _ hi
    constructor
    · rw [hres]
      simpa using hst
    · intro m' hm'
      rw [hres] at hm'
      obtain rfl : _ = m' := Option.some_inj.mp hm'
      refine ⟨hsz1, rfl, ?_, ?_, ?_⟩
      · have hkeys : (({ insert_grow m rOk with
            buckets := (insert_grow m rOk).buckets.set
              ((insert_grow m rOk).hash_func K % (insert_grow m rOk).capacity) chain2 } :
              HashMap).entriesList.map HashMapEntry.key).Perm
            (m.entriesList.map HashMapEntry.key) := by
          have heql : ({ insert_grow m rOk with
              buckets := (insert_grow m rOk).buckets.set
                ((insert_grow m rOk).hash_func K % (insert_grow m rOk).capacity) chain2 } :
                HashMap).entriesList.map HashMapEntry.key =
              (insert_grow m rOk).entriesList.map HashMapEntry.key := by
            rw [hset, hold, hc2]
            simp
          rw [heql]
          exact hperm.map HashMapEntry.key
        exact Quot.sound hkeys
      · intro e2 he2
        rw [hset, hc2] at he2
        rcases List.mem_append.mp he2 with hx | hx
        · refine Or.inl (hperm.mem_iff.mp ?_)
          rw [hold]
          exact List.mem_append_left _ hx
        · rcases List.mem_append.mp hx with hx | hx
          · rcases List.mem_append.mp hx with hx | hx
            · refine Or.inl (hperm.mem_iff.mp ?_)
              rw [hold]
              exact List.mem_append_right _
                (List.mem_append_left _ (List.mem_append_left _ hx))
            · rcases List.mem_cons.mp hx with rfl | hx
              · refine Or.inr ⟨?_, rfl⟩
                rw [← heqf]
                exact he0
              · refine Or.inl (hperm.mem_iff.mp ?_)
                rw [hold]
                exact List.mem_append_right _
                  (List.mem_append_left _ (List.mem_append_right _ (List.mem_cons_of_mem _ hx)))
          · refine Or.inl (hperm.mem_iff.mp ?_)
            rw [hold]
            exact List.mem_append_right _ (List.mem_append_right _ hx)
      · intro hnone
        have he0m : e0 ∈ m.entriesList := by
          refine hperm.mem_iff.mp ?_
          rw [hold]
          exact List.mem_append_right _
            (List.mem_append_left _ (List.mem_append_right _ (List.mem_cons_self e0 q)))
        have := hnone e0 he0m
        rw [← heqf] at this
        rw [this] at he0
        cases he0
  · -- allocation failure on the new-key path: table exactly as after growth
    constructor
    · rw [hres]
    · intro m' hm'
      rw [hres] at hm'
      obtain rfl : _ = m' := Option.some_inj.mp hm'
      exact ⟨hsz1, rfl, Quot.sound (hperm.map HashMapEntry.key),
        fun e2 he2 => Or.inl (hperm.mem_iff.mp he2), fun _ => rfl⟩
  · cases hfalse

/-- C1 amended witness at concrete arguments. -/
theorem C1_amended_alloc_failure_witness :
    (hashmap_insert (some exMap) (some [1]) [9] true false).1 = -1 ∧
    (((hashmap_insert (some exMap) (some [1]) [9] true false).2).getD dummyMap).size =
      exMap.size := by
  obtain ⟨h1, h2⟩ := C1_amended_alloc_failure exMap [1] [9] true (by decide)
  exact ⟨h1, (h2 (((hashmap_insert (some exMap) (some [1]) [9] true false).2).getD
    dummyMap) rfl).1⟩

/-- C7 counterexample: capacity 3 with the default load factor 3/4.  Before
the third insert the occupancy is 2/3 < 3/4 so no resize is triggered, yet
after that successful insert the ratio is 3/3 = 1, which exceeds
max(load_factor, ratio-right-before-the-resize-step) = 3/4.  The claimed
bound fails whenever load_factor · capacity is not an integer. -/
theorem C7_counterexample :
    (hashmap_insert (some c7m2) (some [2]) [0] true true).1 = 0 ∧
    (hashmap_insert (some c7m2) (some [2]) [0] true true).2 = some c7m3 ∧
    ¬ ((c7m3.size : ℚ) / (c7m3.capacity : ℚ) ≤
        max c7m2.load_factor ((c7m2.size : ℚ) / (c7m2.capacity : ℚ))) := by
  refine ⟨by decide, rfl, ?_⟩
  have h1 : c7m3.size = 3 := by decide
  have h2 : c7m3.capacity = 3 := by decide
  have h3 : c7m2.size = 2 := by decide
  have h4 : c7m2.capacity = 3 := by decide
  have h5 : c7m2.load_factor = mkRat 3 4 := by decide
  rw [h1, h2, h3, h4, h5, Rat.mkRat_eq_div]
  norm_num

/-- C7 amended: immediately after any successful insert, size/capacity is at
most max(load_factor, size/capacity right before the resize step) plus one
entry's worth, 1/capacity (rounding of the integer size makes the exact
claimed bound unattainable when load_factor · capacity is fractional). -/
theorem C7_amended_load_bound (m : HashMap) (K V : Bytes) (rOk aOk : Bool) (hWf : Wf m)
    (hK : ¬ K.length = 0)
    (hsucc : (hashmap_insert (some m) (some K) V rOk aOk).1 = 0) :
    ∀ m', (hashmap_insert (some m) (some K) V rOk aOk).2 = some m' →
      (m'.size : ℚ) / (m'.capacity : ℚ) ≤
        max m.load_factor ((m.size : ℚ) / (m.capacity : ℚ)) + 1 / (m'.capacity : ℚ) := by
  intro m' hm'
  have hsz1 : (insert_grow m rOk).size = m.size := (insert_grow_fields m rOk).1
  have hcap1 := insert_grow_capacity m rOk
  have hc := hWf.2.1
  have hfacts : m'.capacity = (insert_grow m rOk).capacity ∧ m'.size ≤ m.size + 1 := by
    rcases hashmap_insert_cases m K V rOk aOk hK with
      ⟨st, chain2, hupd, hres⟩ | ⟨-, -, hres⟩ | ⟨-, -, hres⟩ <;>
    · rw [hres] at hm'
      obtain rfl : _ = m' := Option.some_inj.mp hm'
      exact ⟨rfl, by simp [hsz1]⟩
  have hbound := ratio_bound m.size m.capacity m'.capacity m'.size hc
    (by
      rcases hcap1 with h | h
      · exact Or.inl (hfacts.1.trans h)
      · exact Or.inr (hfacts.1.trans h)) hfacts.2
  refine hbound.trans ?_
  exact add_le_add_right (le_max_right _ _) _

/-- C7 amended witness: the counterexample configuration satisfies the
corrected bound 3/4 + 1/3. -/
theorem C7_amended_load_bound_witness :
    (c7m3.size : ℚ) / (c7m3.capacity : ℚ) ≤
      max c7m2.load_factor ((c7m2.size : ℚ) / (c7m2.capacity : ℚ)) +
        1 / (c7m3.capacity : ℚ) :=
  C7_amended_load_bound c7m2 [2] [0] true true (by decide) (by decide) (by decide)
    c7m3 rfl

end CHashMap
